import Mathlib

/-!
Shallow embedding of the PLY point-cloud codec (`src/read_write/ply.rs`):
the textual header parser, the per-property reader compiler, the streaming
batch reader, and the header/count-field logic of the node writer.
Rust `Result::Err` values are modelled by `POutcome.err`; Rust panics
(`panic!`, `unimplemented!`, out-of-bounds indexing, `unwrap` on `None`)
are modelled by `POutcome.panic`.  Machine integers are modelled as `Nat`
or `Int` with explicit wrapping where the code relies on it; IEEE floats
are modelled as exact rationals (finite bit patterns decode to their exact
rational value, non-finite patterns are represented by 0; rounding of
`f64` arithmetic is not modelled).
-/

namespace Ply

/-- Outcome of a fallible Rust computation: `ok`, a returned `Err`, or a panic. -/
inductive POutcome (α : Type) where
  | ok (a : α)
  | err (m : String)
  | panic
deriving DecidableEq

def POutcome.isOk {α : Type} [DecidableEq α] : POutcome α → Bool
  | .ok _ => true
  | _ => false

def POutcome.isErr {α : Type} [DecidableEq α] : POutcome α → Bool
  | .err _ => true
  | _ => false

def POutcome.getD {α : Type} : POutcome α → α → α
  | .ok a, _ => a
  | _, d => d

/-! ## Lines and tokens

A header is consumed line by line via `BufReader::read_line`; we model the
byte stream as the list of lines it returns (each including its trailing
newline when present).  Reading past the end of the stream yields `""`
forever, exactly as `read_line` does at EOF. -/

def charUtf8Len (c : Char) : Nat :=
  if c.toNat < 128 then 1
  else if c.toNat < 2048 then 2
  else if c.toNat < 65536 then 3
  else 4

def strUtf8Len (s : String) : Nat := (s.data.map charUtf8Len).sum

def isWS (c : Char) : Bool := c.isWhitespace

def trimChars (cs : List Char) : List Char :=
  ((cs.dropWhile isWS).reverse.dropWhile isWS).reverse

/-- `str::trim`. -/
def rtrim (s : String) : String := String.mk (trimChars s.data)

def splitWSAux : List Char → List Char → List String
  | [], acc => if acc = [] then [] else [String.mk acc.reverse]
  | c :: cs, acc =>
    if isWS c then
      if acc = [] then splitWSAux cs []
      else String.mk acc.reverse :: splitWSAux cs []
    else splitWSAux cs (c :: acc)

/-- `line.trim().split_whitespace().collect()`. -/
def tokens (line : String) : List String := splitWSAux (trimChars line.data) []

/-! ## Scalar types and header data model -/

inductive DataType where
  | Int8 | Uint8 | Int16 | Uint16 | Int32 | Uint32
  | Int64 | Uint64
  | Float32 | Float64
deriving DecidableEq

/-- `DataType::from_str`. -/
def DataType.from_str (input : String) : POutcome DataType :=
  if input = "float" ∨ input = "float32" then .ok .Float32
  else if input = "double" ∨ input = "float64" then .ok .Float64
  else if input = "char" ∨ input = "int8" then .ok .Int8
  else if input = "uchar" ∨ input = "uint8" then .ok .Uint8
  else if input = "short" ∨ input = "int16" then .ok .Int16
  else if input = "ushort" ∨ input = "uint16" then .ok .Uint16
  else if input = "int" ∨ input = "int32" then .ok .Int32
  else if input = "uint" ∨ input = "uint32" then .ok .Uint32
  else if input = "longlong" ∨ input = "int64" then .ok .Int64
  else if input = "ulonglong" ∨ input = "uint64" then .ok .Uint64
  else .err ("Invalid data type: " ++ input)

inductive Format where
  | BinaryLittleEndianV1
  | BinaryBigEndianV1
  | AsciiV1
deriving DecidableEq

structure ScalarProperty where
  name : String
  data_type : DataType
deriving DecidableEq

structure Element where
  name : String
  count : Int
  properties : List ScalarProperty
deriving DecidableEq

/-- Exact rational numbers as unreduced numerator/denominator pairs.  Every
value this development constructs has a positive denominator.  `f64` values
are modelled exactly by such rationals (finite IEEE values are rationals);
`f64` rounding is not modelled. -/
structure Q where
  num : Int
  den : Nat
deriving DecidableEq

def Q.zero : Q := ⟨0, 1⟩

def Q.ofNat (n : Nat) : Q := ⟨n, 1⟩

def Q.ofInt (n : Int) : Q := ⟨n, 1⟩

instance : Add Q := ⟨fun a b => ⟨a.num * b.den + b.num * a.den, a.den * b.den⟩⟩

/-- `a ≤ b`, valid for positive denominators. -/
def Q.leb (a b : Q) : Bool := a.num * b.den ≤ b.num * a.den

/-- Truncation toward zero (used only on non-negative values). -/
def Q.trunc (a : Q) : Int := a.num / (a.den : Int)

structure V3 where
  x : Q
  y : Q
  z : Q
deriving DecidableEq

def V3.zero : V3 := ⟨Q.zero, Q.zero, Q.zero⟩

instance : Add V3 := ⟨fun a b => ⟨a.x + b.x, a.y + b.y, a.z + b.z⟩⟩

structure Header where
  format : Format
  elements : List Element
  offset : V3
deriving DecidableEq

def Header.find (h : Header) (name : String) : Option Element :=
  h.elements.find? (fun e => e.name = name)

/-! ## Numeric parsing

`str::parse::<i64>` / `usize::from_str` are modelled for decimal strings
with an optional sign and a 64-bit range check.  `str::parse::<f64>` is
modelled for plain decimal literals (optional sign, digits, optional
fractional part) with exact rational values; the rounding to the nearest
`f64` and the extended float syntax (exponents, infinities, NaN) are not
modelled. -/

def digitVal (c : Char) : Option Nat :=
  if c.toNat ≥ 48 ∧ c.toNat ≤ 57 then some (c.toNat - 48) else none

def parseDigits : List Char → Option Nat
  | [] => none
  | cs => cs.foldl (fun acc c => acc.bind (fun a => (digitVal c).map (fun d => 10 * a + d)))
      (some 0)

/-- `str::parse::<i64>`. -/
def parse_i64 (s : String) : Option Int :=
  let core : List Char → Bool → Option Int := fun cs neg =>
    match cs with
    | [] => none
    | _ =>
      (parseDigits cs).bind (fun n =>
        let v : Int := if neg then -(n : Int) else (n : Int)
        if -(2 ^ 63 : Int) ≤ v ∧ v < 2 ^ 63 then some v else none)
  match s.data with
  | '-' :: cs => core cs true
  | '+' :: cs => core cs false
  | cs => core cs false

/-- `usize::from_str` (64-bit). -/
def parse_usize (s : String) : Option Nat :=
  let core : List Char → Option Nat := fun cs =>
    match cs with
    | [] => none
    | _ => (parseDigits cs).bind (fun n => if n < 2 ^ 64 then some n else none)
  match s.data with
  | '+' :: cs => core cs
  | cs => core cs

/-- `str::parse::<f64>`, restricted to plain decimal literals, with exact value. -/
def parse_f64 (s : String) : Option Q :=
  let core : List Char → Bool → Option Q := fun cs neg =>
    let mk : Nat → Nat → Nat → Option Q := fun ipart fpart fdigits =>
      let n : Int := (ipart * 10 ^ fdigits + fpart : Nat)
      some ⟨if neg then -n else n, 10 ^ fdigits⟩
    match cs.span (fun c => (digitVal c).isSome) with
    | (ips, rest) =>
      match rest with
      | [] => if ips = [] then none else (parseDigits ips).bind (fun i => mk i 0 0)
      | '.' :: fs =>
        if ips = [] then none
        else if fs.all (fun c => (digitVal c).isSome) ∧ fs ≠ [] then
          (parseDigits ips).bind (fun i =>
            (parseDigits fs).bind (fun f => mk i f fs.length))
        else none
      | _ => none
  match s.data with
  | '-' :: cs => core cs true
  | '+' :: cs => core cs false
  | cs => core cs false

/-! ## Header parsing (`parse_header`) -/

/-- The dispatch loop of `parse_header`, one iteration per line read.  An
empty token list (a blank or whitespace-only line, or the simulated empty
line `read_line` returns forever at EOF) indexes `entries[0]` out of
bounds, i.e. panics. -/
def parse_header_loop :
    List String → Option Format → Option Element → V3 → List Element → Nat →
    POutcome (Header × Nat)
  | [], _, _, _, _, _ => .panic
  | line :: rest, fmt, cur, off, elems, len =>
    let len := len + strUtf8Len line
    match tokens line with
    | [] => .panic
    | e0 :: es =>
      if e0 = "format" ∧ es.length = 2 then
        match es with
        | [e1, e2] =>
          if e2 ≠ "1.0" then .err ("Invalid version: " ++ e2)
          else if e1 = "ascii" then
            parse_header_loop rest (some .AsciiV1) cur off elems len
          else if e1 = "binary_little_endian" then
            parse_header_loop rest (some .BinaryLittleEndianV1) cur off elems len
          else if e1 = "binary_big_endian" then
            parse_header_loop rest (some .BinaryBigEndianV1) cur off elems len
          else .err ("Invalid format: " ++ e1)
        | _ => .panic
      else if e0 = "element" ∧ es.length = 2 then
        match es with
        | [e1, e2] =>
          let elems := match cur with
            | some e => elems ++ [e]
            | none => elems
          match parse_i64 e2 with
          | none => .err ("Invalid count: " ++ e2)
          | some c => parse_header_loop rest fmt (some ⟨e1, c, []⟩) off elems len
        | _ => .panic
      else if e0 = "property" then
        match cur with
        | none => .err ("property outside of element: " ++ line)
        | some e =>
          match es with
          | [] => .panic
          | e1 :: _ =>
            if e1 = "list" ∧ es.length = 4 then
              parse_header_loop rest fmt (some e) off elems len
            else if es.length = 2 then
              match DataType.from_str e1 with
              | .err m => .err m
              | .panic => .panic
              | .ok dt =>
                match es with
                | [_, e2] =>
                  parse_header_loop rest fmt
                    (some ⟨e.name, e.count, e.properties ++ [⟨e2, dt⟩]⟩) off elems len
                | _ => .panic
            else .err ("Invalid line: " ++ line)
      else if e0 = "end_header" then
        let elems := match cur with
          | some e => elems ++ [e]
          | none => elems
        match fmt with
        | none => .err "No format specified"
        | some f => .ok (⟨f, elems, off⟩, len)
      else if e0 = "comment" then
        if es.length = 4 ∧ es.get? 0 = some "offset:" then
          match es with
          | [_, sx, sy, sz] =>
            match parse_f64 sx with
            | none => .err ("Invalid offset: " ++ sx)
            | some vx =>
              match parse_f64 sy with
              | none => .err ("Invalid offset: " ++ sy)
              | some vy =>
                match parse_f64 sz with
                | none => .err ("Invalid offset: " ++ sz)
                | some vz => parse_header_loop rest fmt cur ⟨vx, vy, vz⟩ elems len
          | _ => .panic
        else parse_header_loop rest fmt cur off elems len
      else .err ("Invalid line: " ++ line)

/-- `parse_header`: checks the `ply` magic line, then runs the dispatch loop. -/
def parse_header (lines : List String) : POutcome (Header × Nat) :=
  match lines with
  | [] => .err "Not a PLY file"
  | l :: rest =>
    if rtrim l ≠ "ply" then .err "Not a PLY file"
    else parse_header_loop rest none none V3.zero [] (strUtf8Len l)

/-! ## The compiled property readers

`read_casted_property!` builds, per declared scalar type, a reading
function together with the number of bytes it adds to the running byte
offset (`*nread += $num_bytes`) and to the per-point record size
(`$size += $num_bytes`). -/

/-- The `$num_bytes` argument of `create_and_return_reading_fn!` in each arm
of `read_casted_property!` (note the `4` in the `Uint64`/`Int64` arms). -/
def read_casted_property_width : DataType → Nat
  | .Uint8 => 1
  | .Int8 => 1
  | .Uint16 => 2
  | .Int16 => 2
  | .Uint32 => 4
  | .Int32 => 4
  | .Uint64 => 4
  | .Int64 => 4
  | .Float32 => 4
  | .Float64 => 8

/-- The number of buffer bytes the `$reading_fn` of each arm of
`read_casted_property!` actually consumes (`buf[0]` reads 1 byte,
`LittleEndian::read_uN`/`read_iN`/`read_fN` read N/8 bytes). -/
def reading_fn_bytes_read : DataType → Nat
  | .Uint8 => 1
  | .Int8 => 1
  | .Uint16 => 2
  | .Int16 => 2
  | .Uint32 => 4
  | .Int32 => 4
  | .Uint64 => 8
  | .Int64 => 8
  | .Float32 => 4
  | .Float64 => 8

/-- The spec's scalar width table ("1,1,2,2,4,4,8,8,4,8" for
int8,uint8,int16,uint16,int32,uint32,int64,uint64,float32,float64).
This definition follows the spec's words, for comparison with the
code-derived tables above. -/
def spec_scalar_byte_width : DataType → Nat
  | .Int8 => 1
  | .Uint8 => 1
  | .Int16 => 2
  | .Uint16 => 2
  | .Int32 => 4
  | .Uint32 => 4
  | .Int64 => 8
  | .Uint64 => 8
  | .Float32 => 4
  | .Float64 => 8

/-! ### Little-endian byte readers

The data section is a list of byte values (each < 256).  `none` models the
panic of `buf[0]` / `LittleEndian::read_*` on a too-short slice. -/

def read_u8 : List Nat → Option Nat
  | b :: _ => some b
  | [] => none

def read_u16_le : List Nat → Option Nat
  | b0 :: b1 :: _ => some (b0 + 2 ^ 8 * b1)
  | _ => none

def read_u32_le : List Nat → Option Nat
  | b0 :: b1 :: b2 :: b3 :: _ =>
    some (b0 + 2 ^ 8 * b1 + 2 ^ 16 * b2 + 2 ^ 24 * b3)
  | _ => none

def read_u64_le : List Nat → Option Nat
  | b0 :: b1 :: b2 :: b3 :: b4 :: b5 :: b6 :: b7 :: _ =>
    some (b0 + 2 ^ 8 * b1 + 2 ^ 16 * b2 + 2 ^ 24 * b3 + 2 ^ 32 * b4 +
      2 ^ 40 * b5 + 2 ^ 48 * b6 + 2 ^ 56 * b7)
  | _ => none

/-- Reinterpret a `w`-bit unsigned value as two's-complement signed. -/
def toSigned (w : Nat) (v : Nat) : Int :=
  if v < 2 ^ (w - 1) then (v : Int) else (v : Int) - 2 ^ w

def read_i16_le (l : List Nat) : Option Int := (read_u16_le l).map (toSigned 16)

def read_i32_le (l : List Nat) : Option Int := (read_u32_le l).map (toSigned 32)

def read_i64_le (l : List Nat) : Option Int := (read_u64_le l).map (toSigned 64)

/-- Exact rational value of an IEEE binary32 bit pattern; non-finite
patterns (exponent 255) are represented by 0 in this model. -/
def decodeF32Bits (u : Nat) : Q :=
  let sign := u / 2 ^ 31
  let exp := u / 2 ^ 23 % 2 ^ 8
  let frac : Nat := u % 2 ^ 23
  if exp = 255 then Q.zero
  else
    let m : Int := if exp = 0 then (frac : Int) * 2 else ((2 ^ 23 + frac : Nat) : Int) * 2 ^ exp
    ⟨if sign = 1 then -m else m, 2 ^ 150⟩

/-- Exact rational value of an IEEE binary64 bit pattern; non-finite
patterns (exponent 2047) are represented by 0 in this model. -/
def decodeF64Bits (u : Nat) : Q :=
  let sign := u / 2 ^ 63
  let exp := u / 2 ^ 52 % 2 ^ 11
  let frac : Nat := u % 2 ^ 52
  if exp = 2047 then Q.zero
  else
    let m : Int := if exp = 0 then (frac : Int) * 2 else ((2 ^ 52 + frac : Nat) : Int) * 2 ^ exp
    ⟨if sign = 1 then -m else m, 2 ^ 1075⟩

def read_f32_le (l : List Nat) : Option Q := (read_u32_le l).map decodeF32Bits

def read_f64_le (l : List Nat) : Option Q := (read_u64_le l).map decodeF64Bits

/-- The value the reading fn produces, cast `as f64` (used for `x`/`y`/`z`).
Note the `Int8` arm of `read_casted_property!` reads `buf[0]` as an
unsigned byte before the cast. -/
def decode_as_f64 (dt : DataType) (window : List Nat) : Option Q :=
  match dt with
  | .Uint8 => (read_u8 window).map Q.ofNat
  | .Int8 => (read_u8 window).map Q.ofNat
  | .Uint16 => (read_u16_le window).map Q.ofNat
  | .Int16 => (read_i16_le window).map Q.ofInt
  | .Uint32 => (read_u32_le window).map Q.ofNat
  | .Int32 => (read_i32_le window).map Q.ofInt
  | .Uint64 => (read_u64_le window).map Q.ofNat
  | .Int64 => (read_i64_le window).map Q.ofInt
  | .Float32 => read_f32_le window
  | .Float64 => read_f64_le window

/-- Rust float-to-`u8` cast: truncate toward zero, saturating to `[0, 255]`. -/
def q_sat_u8 (q : Q) : Nat :=
  if q.leb Q.zero then 0
  else if (Q.ofNat 255).leb q then 255
  else q.trunc.toNat

/-- The value the reading fn produces, cast `as u8` (used for color
channels): integer casts keep the low byte, float casts saturate. -/
def decode_as_u8 (dt : DataType) (window : List Nat) : Option Nat :=
  match dt with
  | .Uint8 => read_u8 window
  | .Int8 => read_u8 window
  | .Uint16 => (read_u16_le window).map (· % 2 ^ 8)
  | .Int16 => (read_i16_le window).map (fun v => (v % 2 ^ 8).toNat)
  | .Uint32 => (read_u32_le window).map (· % 2 ^ 8)
  | .Int32 => (read_i32_le window).map (fun v => (v % 2 ^ 8).toNat)
  | .Uint64 => (read_u64_le window).map (· % 2 ^ 8)
  | .Int64 => (read_i64_le window).map (fun v => (v % 2 ^ 8).toNat)
  | .Float32 => (read_f32_le window).map q_sat_u8
  | .Float64 => (read_f64_le window).map q_sat_u8

/-! ### Reader compilation (`PlyIterator::from_file`) -/

inductive Axis where
  | X | Y | Z
deriving DecidableEq

inductive ColorChan where
  | R | G | B
deriving DecidableEq

/-- The behavior of one compiled `ReadingFn`, determined by the property's
name and declared type in the dispatch of `from_file`. -/
inductive ReadStep where
  | assignPos (ax : Axis) (dt : DataType)
  | assignColor (ch : ColorChan) (dt : DataType)
  | genericPush (dt : DataType)
  | skip (n : Nat)
deriving DecidableEq

structure PropertyReader where
  prop : ScalarProperty
  step : ReadStep
deriving DecidableEq

/-- The per-property dispatch of the `for prop in &vertex.properties` loop
in `from_file`: position and color properties get casted readers, `a`/`alpha`
is skipped with a hard-coded width of 1, generic properties get a push
reader for the supported storage types and a skip of the type's width
otherwise. -/
def reader_for_prop (p : ScalarProperty) : ReadStep :=
  if p.name = "x" then .assignPos .X p.data_type
  else if p.name = "y" then .assignPos .Y p.data_type
  else if p.name = "z" then .assignPos .Z p.data_type
  else if p.name = "r" ∨ p.name = "red" then .assignColor .R p.data_type
  else if p.name = "g" ∨ p.name = "green" then .assignColor .G p.data_type
  else if p.name = "b" ∨ p.name = "blue" then .assignColor .B p.data_type
  else if p.name = "a" ∨ p.name = "alpha" then .skip 1
  else
    match p.data_type with
    | .Uint8 => .genericPush .Uint8
    | .Uint64 => .genericPush .Uint64
    | .Int64 => .genericPush .Int64
    | .Float32 => .genericPush .Float32
    | .Float64 => .genericPush .Float64
    | .Int8 => .skip 1
    | .Uint16 => .skip 2
    | .Int16 => .skip 2
    | .Uint32 => .skip 4
    | .Int32 => .skip 4

/-- Bytes a compiled step adds to the running offset and the record size. -/
def step_width : ReadStep → Nat
  | .assignPos _ dt => read_casted_property_width dt
  | .assignColor _ dt => read_casted_property_width dt
  | .genericPush dt => read_casted_property_width dt
  | .skip n => n

/-- The compile loop of `from_file`: accumulates the reader list,
`num_bytes_per_point`, and the `seen_x`/`seen_y`/`seen_z` flags. -/
def compile_go :
    List ScalarProperty → List PropertyReader → Nat → Bool → Bool → Bool →
    List PropertyReader × Nat × Bool × Bool × Bool
  | [], rs, w, sx, sy, sz => (rs, w, sx, sy, sz)
  | p :: ps, rs, w, sx, sy, sz =>
    let st := reader_for_prop p
    compile_go ps (rs ++ [⟨p, st⟩]) (w + step_width st)
      (sx || p.name = "x") (sy || p.name = "y") (sz || p.name = "z")

def compile_readers (props : List ScalarProperty) :
    List PropertyReader × Nat × Bool × Bool × Bool :=
  compile_go props [] 0 false false false

/-- State of an open `PlyIterator` (the `BufReader` is represented by the
remaining data bytes; its capacity is `num_bytes_per_point * 1024`). -/
structure PlyIterator where
  readers : List PropertyReader
  num_total_points : Int
  batch_size : Nat
  offset : V3
  point_count : Nat
  num_bytes_per_point : Nat
  bytes : List Nat
deriving DecidableEq

/-- Rust `as usize` on an `i64` (two's-complement wrap into `[0, 2^64)`). -/
def usize_cast (n : Int) : Nat := (n % 2 ^ 64).toNat

/-- `PlyIterator::from_file`, applied to an opened file: the header lines
together with the data bytes that follow the header.  Returns `err` when
`parse_header` does, and panics (as the source does) when the `vertex`
element is missing, the format is not binary little-endian, or any of
`x`/`y`/`z` is missing from the vertex properties. -/
def PlyIterator.from_file (lines : List String) (data : List Nat)
    (batch_size : Nat) : POutcome PlyIterator :=
  match parse_header lines with
  | .err m => .err m
  | .panic => .panic
  | .ok (header, _len) =>
    match header.find "vertex" with
    | none => .panic
    | some vertex =>
      if header.format ≠ Format.BinaryLittleEndianV1 then .panic
      else
        match compile_readers vertex.properties with
        | (readers, num_bytes_per_point, sx, sy, sz) =>
          if ¬(sx ∧ sy ∧ sz) then .panic
          else .ok {
            readers := readers
            num_total_points := vertex.count
            batch_size := batch_size
            offset := header.offset
            point_count := 0
            num_bytes_per_point := num_bytes_per_point
            bytes := data
          }

/-! ## The batch data model

`PointsBatch` and `AttributeData` live at the crate root (not under
`src/read_write`): modelled from the spec: a batch is a `position` column
plus a `BTreeMap` from attribute name to a typed column (scalar `u8`,
`u64`, `i64`, `f32`, `f64`, or 3-component `u8`/`f64` vector columns).
The `BTreeMap` is modelled as an association list kept sorted by
byte-lexicographic key order, which is also UTF-8 codepoint order. -/

inductive AttributeData where
  | U8 (v : List Nat)
  | I64 (v : List Int)
  | U64 (v : List Nat)
  | F32 (v : List Q)
  | F64 (v : List Q)
  | U8Vec3 (v : List (Nat × Nat × Nat))
  | F64Vec3 (v : List V3)
deriving DecidableEq

/-- Modelled from the spec: scalar columns have one component, vector
columns three. -/
def AttributeData.dim : AttributeData → Nat
  | .U8Vec3 _ => 3
  | .F64Vec3 _ => 3
  | _ => 1

/-- Strict lexicographic order on char lists (for ASCII and in fact for
all of Unicode, UTF-8 byte order coincides with codepoint order). -/
def lexLt : List Char → List Char → Bool
  | _, [] => false
  | [], _ :: _ => true
  | a :: as, b :: bs =>
    if a.toNat < b.toNat then true
    else if b.toNat < a.toNat then false
    else lexLt as bs

/-- Rust's `Ord` for `String` (byte-lexicographic). -/
def strLt (a b : String) : Bool := lexLt a.data b.data

abbrev AttrMap : Type := List (String × AttributeData)

/-- `BTreeMap::insert`: keeps the association list sorted by key,
replacing the value when the key is already present. -/
def btInsert (k : String) (v : AttributeData) : AttrMap → AttrMap
  | [] => [(k, v)]
  | (k1, v1) :: rest =>
    if strLt k k1 then (k, v) :: (k1, v1) :: rest
    else if k = k1 then (k, v) :: rest
    else (k1, v1) :: btInsert k v rest

def attrFind (m : AttrMap) (k : String) : Option AttributeData :=
  (m.find? (fun kv => kv.1 = k)).map (fun kv => kv.2)

/-- In-place update of the value stored under `k` (mutation through
`get_attribute_vec_mut` never reorders the map). -/
def attrReplace (m : AttrMap) (k : String) (v : AttributeData) : AttrMap :=
  m.map (fun kv => if kv.1 = k then (kv.1, v) else kv)

structure PointsBatch where
  position : List V3
  attributes : AttrMap
deriving DecidableEq

/-- `batch_from_readers`, the fold over the compiled readers that declares
the batch's attribute columns.  A generic attribute whose name ends in an
ASCII digit hits `unimplemented!()`, and an empty generic name makes
`chars().last().unwrap()` panic. -/
def batch_from_readers_go : List PropertyReader → AttrMap → POutcome AttrMap
  | [], attrs => .ok attrs
  | r :: rs, attrs =>
    let n := r.prop.name
    if n = "x" ∨ n = "y" ∨ n = "z" then batch_from_readers_go rs attrs
    else if n = "r" ∨ n = "red" then
      batch_from_readers_go rs (btInsert "color" (.U8Vec3 []) attrs)
    else if n = "g" ∨ n = "green" ∨ n = "b" ∨ n = "blue" ∨ n = "a" ∨ n = "alpha" then
      batch_from_readers_go rs attrs
    else
      match n.data.getLast? with
      | none => .panic
      | some c =>
        if c.isDigit then .panic
        else
          match r.prop.data_type with
          | .Uint8 => batch_from_readers_go rs (btInsert n (.U8 []) attrs)
          | .Uint64 => batch_from_readers_go rs (btInsert n (.U64 []) attrs)
          | .Int64 => batch_from_readers_go rs (btInsert n (.I64 []) attrs)
          | .Float32 => batch_from_readers_go rs (btInsert n (.F32 []) attrs)
          | .Float64 => batch_from_readers_go rs (btInsert n (.F64 []) attrs)
          | _ => batch_from_readers_go rs attrs

def batch_from_readers (readers : List PropertyReader) : POutcome PointsBatch :=
  match batch_from_readers_go readers [] with
  | .ok attrs => .ok ⟨[], attrs⟩
  | .err m => .err m
  | .panic => .panic

/-- `push_into_multidimensional_attributes`: push a default entry onto
`position` and onto every vector-valued column. -/
def push_into_multidimensional_attributes (b : PointsBatch) : PointsBatch :=
  { position := b.position ++ [V3.zero]
    attributes := b.attributes.map (fun kv =>
      match kv.2 with
      | .U8Vec3 l => (kv.1, .U8Vec3 (l ++ [(0, 0, 0)]))
      | .F64Vec3 l => (kv.1, .F64Vec3 (l ++ [V3.zero]))
      | other => (kv.1, other)) }

def V3.set (ax : Axis) (p : V3) (v : Q) : V3 :=
  match ax with
  | .X => ⟨v, p.y, p.z⟩
  | .Y => ⟨p.x, v, p.z⟩
  | .Z => ⟨p.x, p.y, v⟩

/-- `p.position.last_mut().unwrap().{x,y,z} = val`. -/
def setPosLast (ax : Axis) (v : Q) (b : PointsBatch) : Option PointsBatch :=
  match b.position.getLast? with
  | none => none
  | some p => some { b with position := b.position.dropLast ++ [V3.set ax p v] }

def setChan (ch : ColorChan) (t : Nat × Nat × Nat) (v : Nat) : Nat × Nat × Nat :=
  match ch with
  | .R => (v, t.2.1, t.2.2)
  | .G => (t.1, v, t.2.2)
  | .B => (t.1, t.2.1, v)

/-- `get_attribute_vec_mut::<Vector3<u8>>("color")` followed by
`vec.last_mut().unwrap().{x,y,z} = val`. -/
def setColorLast (ch : ColorChan) (v : Nat) (b : PointsBatch) : Option PointsBatch :=
  match attrFind b.attributes "color" with
  | some (.U8Vec3 l) =>
    match l.getLast? with
    | none => none
    | some t =>
      let l1 := l.dropLast ++ [setChan ch t v]
      some { b with attributes := attrReplace b.attributes "color" (.U8Vec3 l1) }
  | _ => none

/-- One compiled `ReadingFn` applied to the buffered bytes at offset
`nread`: produces the new offset and the mutated batch, or `none` for a
panic (short buffer, or `get_attribute_vec_mut(..).unwrap()` failing). -/
def runStep (r : PropertyReader) (buf : List Nat) (nread : Nat)
    (b : PointsBatch) : Option (Nat × PointsBatch) :=
  let window := buf.drop nread
  match r.step with
  | .skip k => some (nread + k, b)
  | .assignPos ax dt =>
    (decode_as_f64 dt window).bind (fun v =>
      (setPosLast ax v b).map (fun b1 => (nread + read_casted_property_width dt, b1)))
  | .assignColor ch dt =>
    (decode_as_u8 dt window).bind (fun v =>
      (setColorLast ch v b).map (fun b1 => (nread + read_casted_property_width dt, b1)))
  | .genericPush dt =>
    let name := r.prop.name
    let fin : AttributeData → Option (Nat × PointsBatch) := fun data =>
      some (nread + read_casted_property_width dt,
        { b with attributes := attrReplace b.attributes name data })
    match dt with
    | .Uint8 =>
      (read_u8 window).bind (fun v =>
        match attrFind b.attributes name with
        | some (.U8 l) => fin (.U8 (l ++ [v]))
        | _ => none)
    | .Uint64 =>
      (read_u64_le window).bind (fun v =>
        match attrFind b.attributes name with
        | some (.U64 l) => fin (.U64 (l ++ [v]))
        | _ => none)
    | .Int64 =>
      (read_i64_le window).bind (fun v =>
        match attrFind b.attributes name with
        | some (.I64 l) => fin (.I64 (l ++ [v]))
        | _ => none)
    | .Float32 =>
      (read_f32_le window).bind (fun v =>
        match attrFind b.attributes name with
        | some (.F32 l) => fin (.F32 (l ++ [v]))
        | _ => none)
    | .Float64 =>
      (read_f64_le window).bind (fun v =>
        match attrFind b.attributes name with
        | some (.F64 l) => fin (.F64 (l ++ [v]))
        | _ => none)
    | _ => none

/-- `for r in &self.readers { (r.func)(&mut nread, &buf[cnread..], ...) }`. -/
def runSteps : List PropertyReader → List Nat → Nat → PointsBatch →
    Option (Nat × PointsBatch)
  | [], _, nread, b => some (nread, b)
  | r :: rs, buf, nread, b =>
    (runStep r buf nread b).bind (fun nb => runSteps rs buf nb.1 nb.2)

/-- `*batch.position.last_mut().unwrap() += self.offset`. -/
def addOffsetToLast (b : PointsBatch) (off : V3) : Option PointsBatch :=
  match b.position.getLast? with
  | none => none
  | some p => some { b with position := b.position.dropLast ++ [p + off] }

/-- One iteration of the decode loop in `next`: push defaults, run every
compiled step over the buffered bytes, add the global offset to the fresh
position.  Returns the bytes consumed (`nread`) and the mutated batch. -/
def decodeOnePoint (readers : List PropertyReader) (buf : List Nat)
    (b : PointsBatch) (off : V3) : Option (Nat × PointsBatch) :=
  let b0 := push_into_multidimensional_attributes b
  (runSteps readers buf 0 b0).bind (fun nb =>
    (addOffsetToLast nb.2 off).map (fun b2 => (nb.1, b2)))

/-- The `while` loop of `next`.  `fuel` is `total - point_count` at entry;
the loop body runs only while `point_count < total`, so the fuel never
runs out before the loop exits. -/
def fillBatch (readers : List PropertyReader) (off : V3) (total B : Nat) :
    Nat → Nat → List Nat → PointsBatch → POutcome (Nat × List Nat × PointsBatch)
  | 0, pc, bytes, batch => .ok (pc, bytes, batch)
  | fuel + 1, pc, bytes, batch =>
    if pc < total ∧ batch.position.length < B then
      match decodeOnePoint readers bytes batch off with
      | none => .panic
      | some (nread, batch1) =>
        fillBatch readers off total B fuel (pc + 1) (bytes.drop nread) batch1
    else .ok (pc, bytes, batch)

/-- `PlyIterator::next`: `None` once `point_count` reaches the declared
total, otherwise a fresh batch of up to `batch_size` decoded points. -/
def PlyIterator.next (s : PlyIterator) : POutcome (Option (PointsBatch × PlyIterator)) :=
  let total := usize_cast s.num_total_points
  if s.point_count = total then .ok none
  else
    match batch_from_readers s.readers with
    | .err m => .err m
    | .panic => .panic
    | .ok batch0 =>
      match fillBatch s.readers s.offset total s.batch_size
          (total - s.point_count) s.point_count s.bytes batch0 with
      | .err m => .err m
      | .panic => .panic
      | .ok (pc1, bytes1, batch1) =>
        .ok (some (batch1, { s with point_count := pc1, bytes := bytes1 }))

/-- Iterating the reader: collect up to `fuel` batches (the sequence is
finite, so any `fuel` at least the number of batches collects them all). -/
def collectBatches : PlyIterator → Nat → POutcome (List PointsBatch × PlyIterator)
  | s, 0 => .ok ([], s)
  | s, fuel + 1 =>
    match PlyIterator.next s with
    | .err m => .err m
    | .panic => .panic
    | .ok none => .ok ([], s)
    | .ok (some (b, s1)) =>
      match collectBatches s1 fuel with
      | .err m => .err m
      | .panic => .panic
      | .ok (bs, s2) => .ok (b :: bs, s2)

/-- `div_ceil` from `num_integer`, for positive divisors. -/
def div_ceil (a b : Nat) : Nat := (a + b - 1) / b

/-! ## Writer (`PlyNodeWriter`)

The underlying `DataWriter` byte sink lives outside `src/read_write`.
Modelled from the spec: a buffered byte sink offering seek-to-offset and
write; a write at the cursor overwrites in place and extends the file when
it runs past the end. -/

def HEADER_START_TO_NUM_VERTICES : String :=
  "ply\nformat binary_little_endian 1.0\nelement vertex "

def HEADER_NUM_VERTICES : String := "00000000000000000000"

def strBytes (s : String) : List Nat := s.data.map Char.toNat

/-- Modelled from the spec: the `DataWriter` byte sink (file contents plus
cursor). -/
structure DataWriter where
  data : List Nat
  pos : Nat
deriving DecidableEq

def DataWriter.write_all (w : DataWriter) (bs : List Nat) : DataWriter :=
  ⟨w.data.take w.pos ++ bs ++ w.data.drop (w.pos + bs.length), w.pos + bs.length⟩

def DataWriter.seekStart (w : DataWriter) (n : Nat) : DataWriter := ⟨w.data, n⟩

/-! ### The zero-padded decimal count field -/

/-- Decimal digits, most significant first (`fuel`-driven; `fuel > log10 n`
suffices). -/
def decDigitsAux : Nat → Nat → List Nat
  | 0, _ => []
  | fuel + 1, n => if n = 0 then [] else decDigitsAux fuel (n / 10) ++ [n % 10]

def decDigits (n : Nat) : List Nat :=
  if n = 0 then [0] else decDigitsAux (n + 1) n

def decValue (ds : List Nat) : Nat := ds.foldl (fun a d => 10 * a + d) 0

/-- `format!("{:0width$}", point_count)` with `width =
HEADER_NUM_VERTICES.len()`, as ASCII bytes. -/
def countFieldBytes (pc : Nat) : List Nat :=
  (if (decDigits pc).length < HEADER_NUM_VERTICES.data.length then
    List.replicate (HEADER_NUM_VERTICES.data.length - (decDigits pc).length) 0 ++
      decDigits pc
  else decDigits pc).map (· + 48)

/-- Reading the count field back: UTF-8 decode then `usize::from_str`. -/
def parse_count_field (file : List Nat) : Option Nat :=
  let w := HEADER_NUM_VERTICES.data.length
  let off := (strBytes HEADER_START_TO_NUM_VERTICES).length
  ((file.drop off).take w).foldl
    (fun acc b => acc.bind (fun a =>
      if 48 ≤ b ∧ b ≤ 57 then some (10 * a + (b - 48)) else none))
    (some 0)

/-- `PlyNodeWriter::new` in `Append` mode: when the existing file is at
least as long as the fixed prefix plus the count field, seek to the fixed
offset and parse the field as the starting point count. -/
def ply_append_initial_count (file : List Nat) : Option Nat :=
  if (strBytes HEADER_START_TO_NUM_VERTICES).length + HEADER_NUM_VERTICES.data.length ≤
      file.length then
    parse_count_field file
  else some 0

inductive PositionEncoding where
  | Uint8 | Uint16 | Float32 | Float64
deriving DecidableEq

/-- Modelled from the spec: the writer's position-encoding policy, consumed
opaquely to choose the on-disk scalar type of `x`/`y`/`z`. -/
inductive Encoding where
  | Plain
  | ScaledToCube (minv maxv : V3) (pe : PositionEncoding)
deriving DecidableEq

def pos_data_str (enc : Encoding) : String :=
  match enc with
  | .Plain => "double"
  | .ScaledToCube _ _ pe =>
    match pe with
    | .Uint8 => "uchar"
    | .Uint16 => "ushort"
    | .Float32 => "float"
    | .Float64 => "double"

def property_line (data_str name : String) : List Nat :=
  strBytes ("property " ++ data_str ++ " " ++ name ++ "\n")

/-- The property lines `create_header` emits for one attribute column
`(name, type token, component count)`. -/
def element_property_lines (e : String × String × Nat) : List Nat :=
  match e with
  | (name, data_str, num_properties) =>
    if name = "color" ∨ name = "rgb" ∨ name = "rgba" then
      ((["red", "green", "blue", "alpha"].take num_properties).map
        (property_line data_str)).flatten
    else if num_properties > 1 then
      ((List.range num_properties).map
        (fun i => property_line data_str (name ++ toString i))).flatten
    else property_line data_str name

/-- `PlyNodeWriter::create_header`. -/
def create_header (w : DataWriter) (enc : Encoding)
    (elements : List (String × String × Nat)) : DataWriter :=
  let w := w.write_all (strBytes HEADER_START_TO_NUM_VERTICES)
  let w := w.write_all (strBytes HEADER_NUM_VERTICES)
  let w := w.write_all (strBytes "\n")
  let w := w.write_all
    (((["x", "y", "z"].map (property_line (pos_data_str enc)))).flatten)
  let w := w.write_all ((elements.map element_property_lines).flatten)
  w.write_all (strBytes "end_header\n")

/-- The textual type token `NodeWriter<PointsBatch>::write` derives for a
column. -/
def attr_type_token : AttributeData → String
  | .U8 _ => "uchar"
  | .I64 _ => "longlong"
  | .U64 _ => "ulonglong"
  | .F32 _ => "float"
  | .F64 _ => "double"
  | .U8Vec3 _ => "uchar"
  | .F64Vec3 _ => "double"

/-- The `(name, type token, dim)` list `write` passes to `create_header`,
in the iteration order of the batch's attribute map. -/
def write_batch_elements (p : PointsBatch) : List (String × String × Nat) :=
  p.attributes.map (fun kv => (kv.1, attr_type_token kv.2, kv.2.dim))

/-- Per point, `write` emits the position and then every attribute column
in the iteration order of `p.attributes.values()`: the emitted column
names, in emission order. -/
def record_column_names (p : PointsBatch) : List String :=
  "position" :: p.attributes.map (fun kv => kv.1)

/-- The first non-empty `write` of a `PointsBatch` (point count still 0):
the emitted header.  Per-point records follow in `record_column_names`
order; their byte encodings are not modelled. -/
def write_points_batch_header (w : DataWriter) (enc : Encoding)
    (p : PointsBatch) : DataWriter :=
  if p.position = [] then w
  else create_header w enc (write_batch_elements p)

/-- `Drop for PlyNodeWriter`: nothing if no points were written; otherwise
append the trailing newline, seek back to the fixed count-field offset and
overwrite the field with the zero-padded decimal point count. -/
def ply_writer_drop (w : DataWriter) (point_count : Nat) : DataWriter :=
  if point_count = 0 then w
  else
    let w1 := w.write_all (strBytes "\n")
    let w2 := w1.seekStart (strBytes HEADER_START_TO_NUM_VERTICES).length
    w2.write_all (countFieldBytes point_count)

/-- Building an attribute map by repeated `BTreeMap::insert`, in the order
the columns were added. -/
def buildAttrMap (l : List (String × AttributeData)) : AttrMap :=
  l.foldl (fun m kv => btInsert kv.1 kv.2 m) []

/-! ## Lemmas about the string order and the ordered map -/

theorem lexLt_irrefl : ∀ cs : List Char, lexLt cs cs = false := by
  intro cs
  induction cs with
  | nil => rfl
  | cons c cs ih => simp [lexLt, ih]

theorem char_eq_of_toNat_eq {x y : Char} (h : x.toNat = y.toNat) : x = y :=
  Char.ext (UInt32.ext h)

theorem lexLt_trans : ∀ {a b c : List Char},
    lexLt a b = true → lexLt b c = true → lexLt a c = true := by
  intro a
  induction a with
  | nil =>
    intro b c hab hbc
    cases b with
    | nil => simp [lexLt] at hab
    | cons x xs =>
      cases c with
      | nil => simp [lexLt] at hbc
      | cons y ys => simp [lexLt]
  | cons x xs ih =>
    intro b c hab hbc
    cases b with
    | nil => simp [lexLt] at hab
    | cons y ys =>
      cases c with
      | nil => simp [lexLt] at hbc
      | cons z zs =>
        simp only [lexLt] at hab hbc ⊢
        by_cases h1 : x.toNat < y.toNat
        · rw [if_pos h1] at hab
          by_cases h3 : y.toNat < z.toNat
          · rw [if_pos (by omega)]
          · rw [if_neg h3] at hbc
            by_cases h4 : z.toNat < y.toNat
            · rw [if_pos h4] at hbc; exact absurd hbc (by simp)
            · rw [if_pos (by omega)]
        · rw [if_neg h1] at hab
          by_cases h2 : y.toNat < x.toNat
          · rw [if_pos h2] at hab; exact absurd hab (by simp)
          · rw [if_neg h2] at hab
            by_cases h3 : y.toNat < z.toNat
            · rw [if_pos (by omega)]
            · rw [if_neg h3] at hbc
              by_cases h4 : z.toNat < y.toNat
              · rw [if_pos h4] at hbc; exact absurd hbc (by simp)
              · rw [if_neg h4] at hbc
                rw [if_neg (by omega), if_neg (by omega)]
                exact ih hab hbc

theorem lexLt_connex : ∀ {a b : List Char},
    lexLt a b = false → lexLt b a = false → a = b := by
  intro a
  induction a with
  | nil =>
    intro b hab _
    cases b with
    | nil => rfl
    | cons y ys => simp [lexLt] at hab
  | cons x xs ih =>
    intro b hab hba
    cases b with
    | nil => simp [lexLt] at hba
    | cons y ys =>
      simp only [lexLt] at hab hba
      by_cases h1 : x.toNat < y.toNat
      · rw [if_pos h1] at hab; exact absurd hab (by simp)
      · by_cases h2 : y.toNat < x.toNat
        · rw [if_pos h2] at hba; exact absurd hba (by simp)
        · rw [if_neg h1, if_neg h2] at hab
          rw [if_neg h2, if_neg h1] at hba
          have hxy : x = y := char_eq_of_toNat_eq (by omega)
          rw [hxy, ih hab hba]

theorem strLt_trans {a b c : String} (h1 : strLt a b = true) (h2 : strLt b c = true) :
    strLt a c = true := lexLt_trans h1 h2

theorem strLt_connex {a b : String} (h1 : strLt a b = false) (h2 : strLt b a = false) :
    a = b := by
  cases a; cases b
  have := lexLt_connex h1 h2
  simp_all [strLt]

theorem strLt_asymm {a b : String} (h1 : strLt a b = true) (h2 : strLt b a = true) :
    False := by
  have := strLt_trans h1 h2
  cases a
  simp [strLt, lexLt_irrefl] at this

/-- `keysSorted m`: the association list is strictly sorted by key. -/
abbrev keysSorted (m : AttrMap) : Prop :=
  m.Pairwise (fun a b => strLt a.1 b.1 = true)

theorem btInsert_mem {k : String} {v : AttributeData} :
    ∀ {m : AttrMap} {x}, x ∈ btInsert k v m → x = (k, v) ∨ x ∈ m := by
  intro m
  induction m with
  | nil =>
    intro x hx
    simp only [btInsert, List.mem_singleton] at hx
    exact Or.inl hx
  | cons kv rest ih =>
    intro x hx
    simp only [btInsert] at hx
    split_ifs at hx with h1 h2
    · rcases List.mem_cons.mp hx with h | h
      · exact Or.inl h
      · exact Or.inr h
    · rcases List.mem_cons.mp hx with h | h
      · exact Or.inl h
      · exact Or.inr (List.mem_cons_of_mem kv h)
    · rcases List.mem_cons.mp hx with h | h
      · exact Or.inr (h ▸ List.mem_cons_self kv rest)
      · rcases ih h with h3 | h3
        · exact Or.inl h3
        · exact Or.inr (List.mem_cons_of_mem kv h3)

theorem strLt_total {a b : String} (h1 : strLt a b = false) (h2 : a ≠ b) :
    strLt b a = true := by
  cases hlt : strLt b a
  · exact absurd (strLt_connex hlt h1) (fun he => h2 he.symm)
  · rfl

theorem btInsert_sorted {k : String} {v : AttributeData} :
    ∀ {m : AttrMap}, keysSorted m → keysSorted (btInsert k v m) := by
  intro m
  induction m with
  | nil => intro _; simp [btInsert, keysSorted]
  | cons kv rest ih =>
    intro hs
    obtain ⟨hhead, htail⟩ := List.pairwise_cons.mp hs
    simp only [btInsert]
    split_ifs with h1 h2
    · refine List.pairwise_cons.mpr ⟨?_, List.pairwise_cons.mpr ⟨hhead, htail⟩⟩
      intro y hy
      rcases List.mem_cons.mp hy with h | hy2
      · rw [h]; exact h1
      · exact strLt_trans h1 (hhead y hy2)
    · refine List.pairwise_cons.mpr ⟨?_, htail⟩
      intro y hy
      show strLt k y.1 = true
      rw [h2]
      exact hhead y hy
    · refine List.pairwise_cons.mpr ⟨?_, ih htail⟩
      intro y hy
      rcases btInsert_mem hy with h | hy2
      · rw [h]
        show strLt kv.1 k = true
        exact strLt_total (by simpa using h1) h2
      · exact hhead y hy2

theorem buildAttrMap_sorted_go :
    ∀ (l : List (String × AttributeData)) (m : AttrMap), keysSorted m →
      keysSorted (l.foldl (fun m kv => btInsert kv.1 kv.2 m) m) := by
  intro l
  induction l with
  | nil => intro m hm; simpa using hm
  | cons kv rest ih =>
    intro m hm
    exact ih _ (btInsert_sorted hm)

theorem buildAttrMap_sorted (l : List (String × AttributeData)) :
    keysSorted (buildAttrMap l) :=
  buildAttrMap_sorted_go l [] (by simp [keysSorted])

theorem btInsert_perm {k : String} {v : AttributeData} :
    ∀ {m : AttrMap}, (∀ kv ∈ m, kv.1 ≠ k) → (btInsert k v m).Perm ((k, v) :: m) := by
  intro m
  induction m with
  | nil => intro _; simp [btInsert]
  | cons kv rest ih =>
    intro hk
    simp only [btInsert]
    split_ifs with h1 h2
    · exact List.Perm.refl _
    · exact absurd h2.symm (hk kv (by simp))
    · have hstep : (kv :: btInsert k v rest).Perm (kv :: (k, v) :: rest) :=
        List.Perm.cons kv (ih (fun x hx => hk x (List.mem_cons_of_mem kv hx)))
      exact hstep.trans (List.Perm.swap (k, v) kv rest)

theorem buildAttrMap_perm_go :
    ∀ (l : List (String × AttributeData)) (m : AttrMap),
      ((m.map Prod.fst ++ l.map Prod.fst).Nodup) →
      (l.foldl (fun m kv => btInsert kv.1 kv.2 m) m).Perm (m ++ l) := by
  intro l
  induction l with
  | nil => intro m _; simp
  | cons kv rest ih =>
    intro m hnd
    have hdisj := (List.nodup_append.mp hnd).2.2
    have hfresh : ∀ x ∈ m, x.1 ≠ kv.1 := by
      intro x hx he
      have hx1 : x.1 ∈ m.map Prod.fst := List.mem_map_of_mem Prod.fst hx
      have hk1 : x.1 ∈ (kv :: rest).map Prod.fst := by
        simp only [List.map_cons, List.mem_cons]
        exact Or.inl he
      exact hdisj hx1 hk1
    have hperm1 : (btInsert kv.1 kv.2 m).Perm (kv :: m) := btInsert_perm hfresh
    have hkeys : ((btInsert kv.1 kv.2 m).map Prod.fst ++ rest.map Prod.fst).Perm
        (m.map Prod.fst ++ (kv :: rest).map Prod.fst) := by
      refine ((hperm1.map Prod.fst).append_right _).trans ?_
      simp only [List.map_cons, List.cons_append]
      exact List.perm_middle.symm
    have hnd2 : ((btInsert kv.1 kv.2 m).map Prod.fst ++ rest.map Prod.fst).Nodup :=
      hkeys.nodup_iff.mpr hnd
    have h3 := ih (btInsert kv.1 kv.2 m) hnd2
    have h4 : ((btInsert kv.1 kv.2 m) ++ rest).Perm ((kv :: m) ++ rest) :=
      hperm1.append_right rest
    have h5 : ((kv :: m) ++ rest).Perm (m ++ kv :: rest) := by
      simp only [List.cons_append]
      exact List.perm_middle.symm
    exact (h3.trans h4).trans h5

theorem buildAttrMap_perm (l : List (String × AttributeData))
    (h : (l.map Prod.fst).Nodup) : (buildAttrMap l).Perm l := by
  have hb := buildAttrMap_perm_go l [] (by simpa using h)
  simpa [buildAttrMap] using hb

/-! ## Lemmas about the streaming reader -/

/-- Sum of the byte widths of the compiled steps: the per-point record
stride the decode loop advances by. -/
def readers_width_sum (rs : List PropertyReader) : Nat :=
  (rs.map (fun r => step_width r.step)).sum

/-- The positions the `x`/`y`/`z` steps decode, before the global offset is
added: the raw decoded position of one point record. -/
def decode_point_position_go : List PropertyReader → List Nat → Nat → V3 → Option V3
  | [], _, _, p => some p
  | r :: rs, buf, n, p =>
    match r.step with
    | .assignPos ax dt =>
      (decode_as_f64 dt (buf.drop n)).bind (fun v =>
        decode_point_position_go rs buf (n + read_casted_property_width dt) (V3.set ax p v))
    | st => decode_point_position_go rs buf (n + step_width st) p

def decode_point_position (rs : List PropertyReader) (buf : List Nat) : Option V3 :=
  decode_point_position_go rs buf 0 V3.zero

theorem runStep_width {r : PropertyReader} {buf : List Nat} {nread : Nat}
    {b : PointsBatch} {p : Nat × PointsBatch} (h : runStep r buf nread b = some p) :
    p.1 = nread + step_width r.step := by
  rcases r with ⟨prop, st⟩
  cases st with
  | skip k =>
    simp only [runStep] at h
    obtain rfl := Option.some.inj h
    rfl
  | assignPos ax dt =>
    simp only [runStep, Option.bind_eq_some, Option.map_eq_some'] at h
    obtain ⟨v, _, b1, _, hp⟩ := h
    rw [← hp]; rfl
  | assignColor ch dt =>
    simp only [runStep, Option.bind_eq_some, Option.map_eq_some'] at h
    obtain ⟨v, _, b1, _, hp⟩ := h
    rw [← hp]; rfl
  | genericPush dt =>
    cases dt <;> simp only [runStep, Option.bind_eq_some] at h <;>
      first
      | (obtain ⟨v, hv, h2⟩ := h
         split at h2 <;> simp_all [step_width] <;> rw [← h2])
      | exact absurd h (by simp)

theorem setPosLast_position {ax : Axis} {v : Q} {b : PointsBatch} {b1 : PointsBatch}
    (h : setPosLast ax v b = some b1) :
    ∃ p, b.position.getLast? = some p ∧
      b1.position = b.position.dropLast ++ [V3.set ax p v] ∧ b1.attributes = b.attributes := by
  simp only [setPosLast] at h
  split at h
  · exact absurd h (by simp)
  · rename_i p hp
    obtain rfl := Option.some.inj h
    exact ⟨p, hp, rfl, rfl⟩

theorem setColorLast_position {ch : ColorChan} {v : Nat} {b : PointsBatch}
    {b1 : PointsBatch} (h : setColorLast ch v b = some b1) :
    b1.position = b.position := by
  simp only [setColorLast] at h
  split at h
  · split at h
    · exact absurd h (by simp)
    · simp [← Option.some.inj h]
  · exact absurd h (by simp)

theorem runStep_position {r : PropertyReader} {buf : List Nat} {nread : Nat}
    {b : PointsBatch} {p : Nat × PointsBatch} (h : runStep r buf nread b = some p) :
    ∀ init last, b.position = init ++ [last] →
      ∃ q, decode_point_position_go [r] buf nread last = some q ∧
        p.2.position = init ++ [q] := by
  intro init last hpos
  rcases r with ⟨prop, st⟩
  cases st with
  | skip k =>
    simp only [runStep] at h
    obtain rfl := Option.some.inj h
    exact ⟨last, by simp [decode_point_position_go], hpos⟩
  | assignPos ax dt =>
    simp only [runStep, Option.bind_eq_some, Option.map_eq_some'] at h
    obtain ⟨v, hv, b1, hb1, hp⟩ := h
    obtain ⟨q0, hq0, hq1, _⟩ := setPosLast_position hb1
    rw [hpos] at hq0 hq1
    rw [List.getLast?_concat] at hq0
    obtain rfl := Option.some.inj hq0
    refine ⟨V3.set ax last v, ?_, ?_⟩
    · simp [decode_point_position_go, hv]
    · rw [← hp]
      show b1.position = init ++ [V3.set ax last v]
      rw [hq1, List.dropLast_concat]
  | assignColor ch dt =>
    simp only [runStep, Option.bind_eq_some, Option.map_eq_some'] at h
    obtain ⟨v, hv, b1, hb1, hp⟩ := h
    refine ⟨last, by simp [decode_point_position_go, step_width], ?_⟩
    rw [← hp]
    simp only
    rw [setColorLast_position hb1]
    exact hpos
  | genericPush dt =>
    refine ⟨last, by simp [decode_point_position_go, step_width], ?_⟩
    cases dt <;> simp only [runStep, Option.bind_eq_some] at h <;>
      first
      | (obtain ⟨v, hv, h2⟩ := h
         split at h2 <;>
           first
           | (obtain rfl := Option.some.inj h2; exact hpos)
           | exact absurd h2 (by simp))
      | exact absurd h (by simp)

theorem dppg_cons (r : PropertyReader) (rs : List PropertyReader) (buf : List Nat)
    (n : Nat) (p : V3) :
    decode_point_position_go (r :: rs) buf n p =
      (decode_point_position_go [r] buf n p).bind
        (fun q => decode_point_position_go rs buf (n + step_width r.step) q) := by
  rcases r with ⟨prop, st⟩
  cases st with
  | assignPos ax dt =>
    simp only [decode_point_position_go, step_width]
    cases decode_as_f64 dt (buf.drop n) <;> simp [decode_point_position_go]
  | assignColor ch dt => simp [decode_point_position_go, step_width]
  | genericPush dt => simp [decode_point_position_go, step_width]
  | skip k => simp [decode_point_position_go, step_width]

theorem runSteps_width : ∀ {rs : List PropertyReader} {buf : List Nat} {n : Nat}
    {b : PointsBatch} {res : Nat × PointsBatch}, runSteps rs buf n b = some res →
    res.1 = n + readers_width_sum rs := by
  intro rs
  induction rs with
  | nil =>
    intro buf n b res h
    obtain rfl := Option.some.inj h
    simp [readers_width_sum]
  | cons r rs ih =>
    intro buf n b res h
    simp only [runSteps, Option.bind_eq_some] at h
    obtain ⟨nb, h1, h2⟩ := h
    have hw := runStep_width h1
    have := ih h2
    simp only [readers_width_sum, List.map_cons, List.sum_cons] at *
    omega

theorem runSteps_position : ∀ {rs : List PropertyReader} {buf : List Nat} {n : Nat}
    {b : PointsBatch} {res : Nat × PointsBatch}, runSteps rs buf n b = some res →
    ∀ init last, b.position = init ++ [last] →
      ∃ q, decode_point_position_go rs buf n last = some q ∧
        res.2.position = init ++ [q] := by
  intro rs
  induction rs with
  | nil =>
    intro buf n b res h init last hpos
    obtain rfl := Option.some.inj h
    exact ⟨last, rfl, hpos⟩
  | cons r rs ih =>
    intro buf n b res h init last hpos
    simp only [runSteps, Option.bind_eq_some] at h
    obtain ⟨nb, h1, h2⟩ := h
    obtain ⟨q1, hq1, hq2⟩ := runStep_position h1 init last hpos
    have hw := runStep_width h1
    obtain ⟨q, hq3, hq4⟩ := ih h2 init q1 hq2
    refine ⟨q, ?_, hq4⟩
    rw [dppg_cons, hq1]
    simpa [← hw] using hq3

theorem addOffsetToLast_spec {b : PointsBatch} {off : V3} {b2 : PointsBatch}
    (h : addOffsetToLast b off = some b2) :
    ∃ p, b.position.getLast? = some p ∧
      b2.position = b.position.dropLast ++ [p + off] := by
  simp only [addOffsetToLast] at h
  split at h
  · exact absurd h (by simp)
  · rename_i p hp
    obtain rfl := Option.some.inj h
    exact ⟨p, hp, rfl⟩

theorem push_into_position (b : PointsBatch) :
    (push_into_multidimensional_attributes b).position = b.position ++ [V3.zero] := rfl

theorem decodeOnePoint_spec {readers : List PropertyReader} {buf : List Nat}
    {b : PointsBatch} {off : V3} {res : Nat × PointsBatch}
    (h : decodeOnePoint readers buf b off = some res) :
    res.1 = readers_width_sum readers ∧
    ∃ r, decode_point_position readers buf = some r ∧
      res.2.position = b.position ++ [r + off] := by
  simp only [decodeOnePoint, Option.bind_eq_some, Option.map_eq_some'] at h
  obtain ⟨nb, hsteps, b2, hadd, hres⟩ := h
  have hw := runSteps_width hsteps
  obtain ⟨q, hq1, hq2⟩ := runSteps_position hsteps b.position V3.zero (push_into_position b)
  obtain ⟨p, hp1, hp2⟩ := addOffsetToLast_spec hadd
  rw [hq2, List.getLast?_concat] at hp1
  obtain rfl := Option.some.inj hp1
  constructor
  · rw [← hres]
    simpa using hw
  · refine ⟨q, hq1, ?_⟩
    rw [← hres]
    show b2.position = b.position ++ [q + off]
    rw [hp2, hq2, List.dropLast_concat]

theorem fillBatch_spec {readers : List PropertyReader} {off : V3} {total B : Nat} :
    ∀ (fuel pc : Nat) (bytes : List Nat) (batch : PointsBatch)
      (res : Nat × List Nat × PointsBatch),
      fillBatch readers off total B fuel pc bytes batch = .ok res →
      fuel = total - pc →
      res.1 = pc + min (B - batch.position.length) (total - pc) ∧
      res.2.1 = bytes.drop (min (B - batch.position.length) (total - pc) *
        readers_width_sum readers) ∧
      res.2.2.position.length = batch.position.length +
        min (B - batch.position.length) (total - pc) ∧
      (∀ j, j < batch.position.length → res.2.2.position[j]? = batch.position[j]?) ∧
      (∀ i, i < min (B - batch.position.length) (total - pc) →
        ∃ r, decode_point_position readers
            (bytes.drop (i * readers_width_sum readers)) = some r ∧
          res.2.2.position[batch.position.length + i]? = some (r + off)) := by
  intro fuel
  induction fuel with
  | zero =>
    intro pc bytes batch res h hfuel
    have htot : total ≤ pc := by omega
    have hk : min (B - batch.position.length) (total - pc) = 0 := by omega
    simp only [fillBatch] at h
    obtain rfl := (by injection h : (pc, bytes, batch) = res)
    rw [hk]
    refine ⟨by simp, by simp, by simp, fun j _ => rfl, fun i hi => by omega⟩
  | succ fuel ih =>
    intro pc bytes batch res h hfuel
    simp only [fillBatch] at h
    split_ifs at h with hg
    · obtain ⟨hpc, hlen⟩ := hg
      split at h
      · exact absurd h (by simp)
      · rename_i nread batch1 hdec
        have hds := decodeOnePoint_spec hdec
        obtain ⟨hw0, r0, hr0, hb0⟩ := hds
        have hw : nread = readers_width_sum readers := hw0
        have hb1 : batch1.position = batch.position ++ [r0 + off] := hb0
        subst hw
        have hlen1 : batch1.position.length = batch.position.length + 1 := by
          rw [hb1]; simp
        have ihres := ih (pc + 1) (bytes.drop (readers_width_sum readers)) batch1 res h
          (by omega)
        obtain ⟨ih1, ih2, ih3, ih4, ih5⟩ := ihres
        set W := readers_width_sum readers with hWdef
        set len := batch.position.length with hlendef
        have hkk : min (B - (len + 1)) (total - (pc + 1)) + 1 =
            min (B - len) (total - pc) := by omega
        rw [hlen1] at ih1 ih2 ih3 ih4 ih5
        refine ⟨by omega, ?_, by omega, ?_, ?_⟩
        · rw [ih2, List.drop_drop]
          have harith : W + min (B - (len + 1)) (total - (pc + 1)) * W =
              min (B - len) (total - pc) * W := by
            rw [← hkk]; ring
          rw [harith]
        · intro j hj
          rw [ih4 j (by omega), hb1, List.getElem?_append_left hj]
        · intro i hi
          rcases Nat.eq_zero_or_pos i with rfl | hip
          · refine ⟨r0, by simpa using hr0, ?_⟩
            rw [Nat.add_zero, ih4 len (by omega), hb1, hlendef]
            exact List.getElem?_concat_length _ _
          · obtain ⟨i1, rfl⟩ : ∃ k, i = k + 1 := ⟨i - 1, by omega⟩
            obtain ⟨r, hr1, hr2⟩ := ih5 i1 (by omega)
            refine ⟨r, ?_, ?_⟩
            · rw [List.drop_drop] at hr1
              have harith : W + i1 * W = (i1 + 1) * W := by ring
              rw [harith] at hr1
              exact hr1
            · have hidx : len + (i1 + 1) = len + 1 + i1 := by omega
              rw [hidx]
              exact hr2
    · have hpc : pc < total := by omega
      have hlen : B ≤ batch.position.length := by
        rcases Decidable.not_and_iff_or_not.mp hg with h1 | h1
        · omega
        · omega
      have hk : min (B - batch.position.length) (total - pc) = 0 := by omega
      obtain rfl := (by injection h : (pc, bytes, batch) = res)
      rw [hk]
      refine ⟨by simp, by simp, by simp, fun j _ => rfl, fun i hi => by omega⟩

theorem batch_from_readers_empty_position {rs : List PropertyReader} {b : PointsBatch}
    (h : batch_from_readers rs = .ok b) : b.position = [] := by
  simp only [batch_from_readers] at h
  split at h <;> first
  | (obtain rfl := (by injection h : _ = b); rfl)
  | exact absurd h (by simp)

theorem next_none_of_done {s : PlyIterator}
    (h : s.point_count = usize_cast s.num_total_points) :
    PlyIterator.next s = .ok none := by
  simp [PlyIterator.next, h]

theorem next_some_spec {s : PlyIterator} {b : PointsBatch} {s1 : PlyIterator}
    (h : PlyIterator.next s = .ok (some (b, s1))) :
    b.position.length =
      min s.batch_size (usize_cast s.num_total_points - s.point_count) ∧
    s1.point_count = s.point_count + b.position.length ∧
    s1.bytes = s.bytes.drop (b.position.length * readers_width_sum s.readers) ∧
    s1.readers = s.readers ∧ s1.num_total_points = s.num_total_points ∧
    s1.batch_size = s.batch_size ∧ s1.offset = s.offset ∧
    s1.num_bytes_per_point = s.num_bytes_per_point ∧
    s.point_count ≠ usize_cast s.num_total_points ∧
    (∀ i, i < b.position.length →
      ∃ r, decode_point_position s.readers
          (s.bytes.drop (i * readers_width_sum s.readers)) = some r ∧
        b.position[i]? = some (r + s.offset)) := by
  simp only [PlyIterator.next] at h
  split_ifs at h with hpc
  · exact absurd h (by simp)
  · split at h
    · exact absurd h (by simp)
    · exact absurd h (by simp)
    · rename_i batch0 hbfr
      have hb0 : batch0.position = [] := batch_from_readers_empty_position hbfr
      split at h
      · exact absurd h (by simp)
      · exact absurd h (by simp)
      · rename_i pc1 bytes1 batch1 hfill
        have hpair : (batch1, ({ s with point_count := pc1, bytes := bytes1 } :
            PlyIterator)) = (b, s1) := Option.some.inj (POutcome.ok.inj h)
        have hb : batch1 = b := congrArg Prod.fst hpair
        have hs1 : ({ s with point_count := pc1, bytes := bytes1 } : PlyIterator) = s1 :=
          congrArg Prod.snd hpair
        have hf := fillBatch_spec _ s.point_count s.bytes batch0 (pc1, bytes1, batch1)
          hfill rfl
        rw [hb0] at hf
        simp only [List.length_nil, Nat.sub_zero, Nat.zero_add] at hf
        obtain ⟨hf1, hf2, hf3, _, hf5⟩ := hf
        have hblen : b.position.length =
            min s.batch_size (usize_cast s.num_total_points - s.point_count) := by
          rw [← hb]; exact hf3
        refine ⟨hblen, ?_, ?_, ?_, ?_, ?_, ?_, ?_, hpc, ?_⟩
        · rw [← hs1]; simp only; omega
        · rw [← hs1, hblen]; simp only; exact hf2
        · rw [← hs1]
        · rw [← hs1]
        · rw [← hs1]
        · rw [← hs1]
        · rw [← hs1]
        · intro i hi
          rw [hblen] at hi
          obtain ⟨r, hr1, hr2⟩ := hf5 i hi
          exact ⟨r, hr1, by rw [← hb]; simpa using hr2⟩

theorem next_some_of_collect_cons {s : PlyIterator} {fuel : Nat} {b : PointsBatch}
    {bs : List PointsBatch} {s2 : PlyIterator}
    (h : collectBatches s fuel = .ok (b :: bs, s2)) :
    ∃ fuel1 s1, fuel = fuel1 + 1 ∧ PlyIterator.next s = .ok (some (b, s1)) ∧
      collectBatches s1 fuel1 = .ok (bs, s2) := by
  cases fuel with
  | zero =>
    simp only [collectBatches] at h
    exact absurd (by injection h : ([], s) = (b :: bs, s2))
      (by intro he; exact absurd (congrArg Prod.fst he) (by simp))
  | succ fuel =>
    simp only [collectBatches] at h
    split at h
    · exact absurd h (by simp)
    · exact absurd h (by simp)
    · have hpair := POutcome.ok.inj h
      exact absurd (congrArg Prod.fst hpair) (by simp)
    · rename_i b1 s1 hsome
      split at h
      · exact absurd h (by simp)
      · exact absurd h (by simp)
      · rename_i bs1 s21 hcol
        have hpair := POutcome.ok.inj h
        have h1 : b1 :: bs1 = b :: bs := congrArg Prod.fst hpair
        have h2 : s21 = s2 := congrArg Prod.snd hpair
        obtain ⟨hb1, hbs1⟩ := List.cons.inj h1
        refine ⟨fuel, s1, rfl, ?_, ?_⟩
        · rw [← hb1]; exact hsome
        · rw [← hbs1, ← h2]; exact hcol

theorem collect_done {s : PlyIterator} {fuel : Nat}
    (h : s.point_count = usize_cast s.num_total_points) :
    collectBatches s fuel = .ok ([], s) := by
  cases fuel with
  | zero => rfl
  | succ fuel => simp [collectBatches, next_none_of_done h]

theorem next_ok_none_inv {s : PlyIterator} (h : PlyIterator.next s = .ok none) :
    s.point_count = usize_cast s.num_total_points := by
  by_contra hne
  simp only [PlyIterator.next] at h
  rw [if_neg hne] at h
  split at h
  · exact absurd h (by simp)
  · exact absurd h (by simp)
  · split at h
    · exact absurd h (by simp)
    · exact absurd h (by simp)
    · exact absurd h (by simp)

theorem div_ceil_eq_zero {r B : Nat} (hB : 1 ≤ B) (h : div_ceil r B = 0) : r = 0 := by
  unfold div_ceil at h
  rw [Nat.div_eq_zero_iff (by omega)] at h
  omega

theorem div_ceil_one {r B : Nat} (h1 : 1 ≤ r) (h2 : r ≤ B) : div_ceil r B = 1 := by
  unfold div_ceil
  have h3 : r + B - 1 = (r - 1) + B := by omega
  rw [h3, Nat.add_div_right _ (by omega), Nat.div_eq_of_lt (by omega)]

theorem div_ceil_sub {r B : Nat} (hB : 1 ≤ B) (h : B < r) :
    div_ceil (r - B) B = div_ceil r B - 1 := by
  unfold div_ceil
  have h1 : r - B + B - 1 = r - 1 := by omega
  rw [h1]
  have h2 : r + B - 1 = (r - 1) + B := by omega
  rw [h2, Nat.add_div_right _ (by omega)]
  exact (Nat.add_sub_cancel _ _).symm

theorem div_ceil_zero {B : Nat} (hB : 1 ≤ B) : div_ceil 0 B = 0 := by
  unfold div_ceil
  exact Nat.div_eq_of_lt (by omega)

theorem div_ceil_pos {r B : Nat} (hB : 1 ≤ B) (hr : 1 ≤ r) : 1 ≤ div_ceil r B := by
  unfold div_ceil
  rw [Nat.le_div_iff_mul_le (by omega)]
  omega

theorem dropLast_cons_ne {α : Type} {b : α} {bs : List α} (h : bs ≠ []) :
    (b :: bs).dropLast = b :: bs.dropLast := by
  cases bs with
  | nil => exact absurd rfl h
  | cons x xs => rfl

theorem getLast?_cons_ne {α : Type} {b : α} {bs : List α} (h : bs ≠ []) :
    (b :: bs).getLast? = bs.getLast? := by
  cases bs with
  | nil => exact absurd rfl h
  | cons x xs => exact List.getLast?_cons_cons

/-- Counting behavior of iterating the reader: with enough fuel, the run
consumes all remaining points, all batches but the last are full, the last
is non-empty, and the final state is exhausted. -/
theorem collect_count_spec :
    ∀ (fuel : Nat) (s : PlyIterator) (bs : List PointsBatch) (s2 : PlyIterator),
      collectBatches s fuel = .ok (bs, s2) →
      1 ≤ s.batch_size →
      s.point_count ≤ usize_cast s.num_total_points →
      div_ceil (usize_cast s.num_total_points - s.point_count) s.batch_size ≤ fuel →
      bs.length = div_ceil (usize_cast s.num_total_points - s.point_count) s.batch_size ∧
      (∀ b ∈ bs.dropLast, b.position.length = s.batch_size) ∧
      (∀ b, bs.getLast? = some b →
        0 < b.position.length ∧ b.position.length ≤ s.batch_size) ∧
      (bs.map (fun b => b.position.length)).sum =
        usize_cast s.num_total_points - s.point_count ∧
      s2.point_count = usize_cast s.num_total_points ∧
      s2.num_total_points = s.num_total_points := by
  intro fuel
  induction fuel with
  | zero =>
    intro s bs s2 h hB hle hceil
    have hr : usize_cast s.num_total_points - s.point_count = 0 :=
      div_ceil_eq_zero hB (by omega)
    simp only [collectBatches] at h
    have hpair := POutcome.ok.inj h
    have hbs : ([] : List PointsBatch) = bs := congrArg Prod.fst hpair
    have hs2 : s = s2 := congrArg Prod.snd hpair
    rw [← hbs, ← hs2, hr]
    refine ⟨by simp [div_ceil_zero hB], by simp, by simp, by simp, by omega, rfl⟩
  | succ fuel ih =>
    intro s bs s2 h hB hle hceil
    simp only [collectBatches] at h
    split at h
    · exact absurd h (by simp)
    · exact absurd h (by simp)
    · rename_i hnone
      have hdone := next_ok_none_inv hnone
      have hpair := POutcome.ok.inj h
      have hbs : ([] : List PointsBatch) = bs := congrArg Prod.fst hpair
      have hs2 : s = s2 := congrArg Prod.snd hpair
      rw [← hbs, ← hs2, hdone]
      refine ⟨by simp [div_ceil_zero hB], by simp, by simp, by simp, rfl, rfl⟩
    · rename_i b1 s1 hsome
      split at h
      · exact absurd h (by simp)
      · exact absurd h (by simp)
      · rename_i bs1 s21 hcol
        have hpair := POutcome.ok.inj h
        have hbs : b1 :: bs1 = bs := congrArg Prod.fst hpair
        have hs2 : s21 = s2 := congrArg Prod.snd hpair
        obtain ⟨hk, hs1pc, _, _, hs1num, hs1B, _, _, hne, _⟩ := next_some_spec hsome
        set N := usize_cast s.num_total_points with hNdef
        set B := s.batch_size with hBdef
        set r := N - s.point_count with hrdef
        set k := b1.position.length with hkdef
        have hrpos : 1 ≤ r := by omega
        have hkval : k = min B r := hk
        have hkpos : 1 ≤ k := by omega
        have hkler : k ≤ r := by omega
        have hs1N : usize_cast s1.num_total_points = N := by rw [hs1num]
        have hr1 : usize_cast s1.num_total_points - s1.point_count = r - k := by
          rw [hs1N, hs1pc]; omega
        have hceil1 : div_ceil (usize_cast s1.num_total_points - s1.point_count)
            s1.batch_size ≤ fuel := by
          rw [hr1, hs1B]
          rcases le_or_lt r B with hcase | hcase
          · have hkr : k = r := by omega
            rw [hkr]
            simp only [Nat.sub_self]
            rw [div_ceil_zero hB]
            omega
          · have hkB : k = B := by omega
            rw [hkB, div_ceil_sub hB hcase]
            have := div_ceil_pos hB hrpos
            omega
        have ihres := ih s1 bs1 s21 hcol (by rw [hs1B]; exact hB)
          (by rw [hs1N, hs1pc]; omega) hceil1
        obtain ⟨ihlen, ihdrop, ihlast, ihsum, ihpc, ihnum⟩ := ihres
        rw [hr1] at ihlen ihsum
        rw [hs1B] at ihlen
        have hceilr : div_ceil r B = bs1.length + 1 := by
          rcases le_or_lt r B with hcase | hcase
          · have hkr : k = r := by omega
            rw [div_ceil_one hrpos hcase, ihlen, hkr]
            simp only [Nat.sub_self]
            rw [div_ceil_zero hB]
          · have hkB : k = B := by omega
            rw [ihlen, hkB, div_ceil_sub hB hcase]
            have := div_ceil_pos hB hrpos
            omega
        have hkfull : bs1 ≠ [] → k = B := by
          intro hne1
          have hlen1 : 1 ≤ bs1.length := by
            cases bs1 with
            | nil => exact absurd rfl hne1
            | cons _ _ => simp
          have hrk : 1 ≤ r - k := by
            by_contra hc
            have hrk0 : r - k = 0 := by omega
            rw [hrk0, div_ceil_zero hB] at ihlen
            omega
          omega
        rw [← hbs, ← hs2]
        refine ⟨?_, ?_, ?_, ?_, ?_, ?_⟩
        · simp only [List.length_cons]
          omega
        · intro b hb
          cases hbs1 : bs1 with
          | nil =>
            rw [hbs1] at hb
            simp at hb
          | cons x xs =>
            have hne1 : bs1 ≠ [] := by rw [hbs1]; simp
            rw [dropLast_cons_ne hne1] at hb
            rcases List.mem_cons.mp hb with hb1 | hb2
            · rw [hb1]
              exact hkfull hne1
            · have := ihdrop b hb2
              rw [hs1B] at this
              exact this
        · intro b hb
          cases hbs1 : bs1 with
          | nil =>
            rw [hbs1] at hb
            simp only [List.getLast?_singleton] at hb
            obtain rfl := Option.some.inj hb
            exact ⟨hkpos, by omega⟩
          | cons x xs =>
            have hne1 : bs1 ≠ [] := by rw [hbs1]; simp
            rw [getLast?_cons_ne hne1] at hb
            have := ihlast b hb
            rw [hs1B] at this
            exact this
        · simp only [List.map_cons, List.sum_cons]
          omega
        · rw [ihpc, hs1N]
        · rw [ihnum, hs1num]

/-- Position values of iterating the reader: every position of every
collected batch is the raw decoded position of its point record, plus the
header's global offset. -/
theorem collect_pos_spec :
    ∀ (fuel : Nat) (s : PlyIterator) (bs : List PointsBatch) (s2 : PlyIterator),
      collectBatches s fuel = .ok (bs, s2) →
      s.point_count ≤ usize_cast s.num_total_points →
      ∀ j b1, bs[j]? = some b1 → ∀ i, i < b1.position.length →
        ∃ r, decode_point_position s.readers
            (s.bytes.drop ((j * s.batch_size + i) * readers_width_sum s.readers)) =
              some r ∧
          b1.position[i]? = some (r + s.offset) := by
  intro fuel
  induction fuel with
  | zero =>
    intro s bs s2 h hle j b1 hj i hi
    simp only [collectBatches] at h
    have hbs : ([] : List PointsBatch) = bs := congrArg Prod.fst (POutcome.ok.inj h)
    rw [← hbs] at hj
    simp at hj
  | succ fuel ih =>
    intro s bs s2 h hle j b1 hj i hi
    simp only [collectBatches] at h
    split at h
    · exact absurd h (by simp)
    · exact absurd h (by simp)
    · have hbs : ([] : List PointsBatch) = bs := congrArg Prod.fst (POutcome.ok.inj h)
      rw [← hbs] at hj
      simp at hj
    · rename_i b0 s1 hsome
      split at h
      · exact absurd h (by simp)
      · exact absurd h (by simp)
      · rename_i bs1 s21 hcol
        have hbs : b0 :: bs1 = bs := congrArg Prod.fst (POutcome.ok.inj h)
        rw [← hbs] at hj
        obtain ⟨hk, hs1pc, hs1bytes, hs1rd, hs1num, hs1B, hs1off, _, hne, hpts⟩ :=
          next_some_spec hsome
        cases j with
        | zero =>
          simp only [List.getElem?_cons_zero] at hj
          obtain rfl := Option.some.inj hj
          obtain ⟨r, hr1, hr2⟩ := hpts i hi
          refine ⟨r, ?_, hr2⟩
          simpa using hr1
        | succ j1 =>
          simp only [List.getElem?_cons_succ] at hj
          have hb1mem : j1 < bs1.length := by
            by_contra hc
            rw [List.getElem?_eq_none (by omega)] at hj
            exact absurd hj (by simp)
          have hbs1ne : bs1 ≠ [] := by
            intro hnil
            rw [hnil] at hb1mem
            simp at hb1mem
          have hs1le : s1.point_count ≤ usize_cast s1.num_total_points := by
            rw [hs1pc, hs1num]
            have := hk
            omega
          have hkB : b0.position.length = s.batch_size := by
            obtain ⟨b2, bs2, hcons⟩ : ∃ b2 bs2, bs1 = b2 :: bs2 := by
              cases bs1 with
              | nil => exact absurd rfl hbs1ne
              | cons b2 bs2 => exact ⟨b2, bs2, rfl⟩
            rw [hcons] at hcol
            obtain ⟨fuel2, s3, _, hnext1, _⟩ := next_some_of_collect_cons hcol
            obtain ⟨_, _, _, _, _, _, _, _, hne1, _⟩ := next_some_spec hnext1
            rw [hs1pc, hs1num] at hne1
            have := hk
            omega
          obtain ⟨r, hr1, hr2⟩ := ih s1 bs1 s21 hcol hs1le j1 b1 hj i hi
          refine ⟨r, ?_, ?_⟩
          · rw [hs1rd, hs1bytes, hs1B, List.drop_drop, hkB] at hr1
            have harith : b0.position.length * readers_width_sum s.readers +
                (j1 * s.batch_size + i) * readers_width_sum s.readers =
                ((j1 + 1) * s.batch_size + i) * readers_width_sum s.readers := by
              rw [hkB]; ring
            rw [hkB] at harith
            rw [harith] at hr1
            exact hr1
          · rw [hs1off] at hr2
            exact hr2

/-! ## Lemmas about parsing and reader construction -/

/-- A header line of the form `comment offset: <x> <y> <z>`. -/
def is_offset_comment (l : String) : Bool :=
  match tokens l with
  | e0 :: es =>
    decide (e0 = "comment") && decide (es.length = 4) &&
      decide (es.get? 0 = some "offset:")
  | [] => false

/-- If no line is an offset comment, the parse loop never changes the
offset accumulator. -/
theorem parse_loop_offset_inv :
    ∀ (lines : List String) (fmt : Option Format) (cur : Option Element) (off : V3)
      (elems : List Element) (len : Nat) (h : Header) (hl : Nat),
      (∀ l ∈ lines, is_offset_comment l = false) →
      parse_header_loop lines fmt cur off elems len = .ok (h, hl) →
      h.offset = off := by
  intro lines
  induction lines with
  | nil =>
    intro fmt cur off elems len h hl _ hp
    exact absurd hp (by simp [parse_header_loop])
  | cons l rest ihl =>
    intro fmt cur off elems len h hl hnone hp
    have hl0 := hnone l (List.mem_cons_self l rest)
    have hrest : ∀ x ∈ rest, is_offset_comment x = false :=
      fun x hx => hnone x (List.mem_cons_of_mem l hx)
    simp only [parse_header_loop] at hp
    split at hp
    · exact POutcome.noConfusion hp
    · rename_i e0 es htok
      simp only [is_offset_comment, htok] at hl0
      split_ifs at hp <;>
        repeat' first
          | exact ihl _ _ _ _ _ _ _ hrest hp
          | exact POutcome.noConfusion hp
          | split at hp
          | simp_all
          | (rw [← hp.1])

/-- If no line is an offset comment, a successfully parsed header carries
the zero offset. -/
theorem parse_header_offset_zero {lines : List String} {h : Header} {hl : Nat}
    (hnone : ∀ l ∈ lines, is_offset_comment l = false)
    (hp : parse_header lines = .ok (h, hl)) : h.offset = V3.zero := by
  unfold parse_header at hp
  split at hp
  · exact POutcome.noConfusion hp
  · rename_i l rest
    split_ifs at hp with hply <;>
      first
      | exact POutcome.noConfusion hp
      | exact parse_loop_offset_inv rest none none V3.zero [] _ h hl
          (fun x hx => hnone x (List.mem_cons_of_mem l hx)) hp

/-- The reader list `from_file` compiles, one entry per vertex property. -/
def compiled_readers (props : List ScalarProperty) : List PropertyReader :=
  props.map (fun p => ⟨p, reader_for_prop p⟩)

theorem compile_go_spec :
    ∀ (props : List ScalarProperty) (rs : List PropertyReader) (w : Nat)
      (sx sy sz : Bool),
      compile_go props rs w sx sy sz =
        (rs ++ compiled_readers props, w + readers_width_sum (compiled_readers props),
         sx || props.any (fun p => p.name = "x"),
         sy || props.any (fun p => p.name = "y"),
         sz || props.any (fun p => p.name = "z")) := by
  intro props
  induction props with
  | nil =>
    intro rs w sx sy sz
    simp [compile_go, compiled_readers, readers_width_sum]
  | cons p ps ih =>
    intro rs w sx sy sz
    simp only [compile_go, ih, compiled_readers, List.map_cons, List.any_cons,
      readers_width_sum, List.sum_cons, Prod.mk.injEq]
    refine ⟨by simp, by omega, ?_, ?_, ?_⟩ <;> simp [Bool.or_assoc]

theorem compile_readers_spec (props : List ScalarProperty) :
    compile_readers props =
      (compiled_readers props, readers_width_sum (compiled_readers props),
       props.any (fun p => p.name = "x"), props.any (fun p => p.name = "y"),
       props.any (fun p => p.name = "z")) := by
  unfold compile_readers
  rw [compile_go_spec]
  simp

/-- Characterization of a successful `from_file`. -/
theorem from_file_ok_spec {lines : List String} {data : List Nat} {B : Nat}
    {s : PlyIterator} (h : PlyIterator.from_file lines data B = .ok s) :
    ∃ header len vertex, parse_header lines = .ok (header, len) ∧
      header.find "vertex" = some vertex ∧
      header.format = .BinaryLittleEndianV1 ∧
      s = { readers := compiled_readers vertex.properties
            num_total_points := vertex.count
            batch_size := B
            offset := header.offset
            point_count := 0
            num_bytes_per_point := readers_width_sum (compiled_readers vertex.properties)
            bytes := data } := by
  simp only [PlyIterator.from_file] at h
  split at h
  · exact POutcome.noConfusion h
  · exact POutcome.noConfusion h
  · rename_i header len hparse
    split at h
    · exact POutcome.noConfusion h
    · rename_i vertex hfind
      split_ifs at h with hfmt hseen <;>
        first
        | exact POutcome.noConfusion h
        | (have hs := (POutcome.ok.inj h).symm
           refine ⟨header, len, vertex, hparse, hfind, by simpa using hfmt, ?_⟩
           rw [hs]
           simp [compile_readers_spec])

/-- A property name that reaches the generic-attribute arm of
`batch_from_readers` (not a position, color or alpha name). -/
def generic_name (n : String) : Prop :=
  ¬(n = "x" ∨ n = "y" ∨ n = "z" ∨ n = "r" ∨ n = "red" ∨ n = "g" ∨ n = "green" ∨
    n = "b" ∨ n = "blue" ∨ n = "a" ∨ n = "alpha")

instance (n : String) : Decidable (generic_name n) := by
  unfold generic_name
  infer_instance

/-- The name makes `batch_from_readers` hit `unimplemented!()` (last char
an ASCII digit) or `chars().last().unwrap()` (empty name). -/
def digit_or_empty_end (n : String) : Bool :=
  n.data.getLast?.elim true Char.isDigit

theorem bfr_go_panic : ∀ (rs : List PropertyReader) (attrs : AttrMap),
    (∃ pr ∈ rs, generic_name pr.prop.name ∧ digit_or_empty_end pr.prop.name = true) →
    batch_from_readers_go rs attrs = .panic := by
  intro rs
  induction rs with
  | nil =>
    intro attrs h
    obtain ⟨pr, hmem, _⟩ := h
    simp at hmem
  | cons r rest ih =>
    intro attrs h
    obtain ⟨pr, hmem, hgen, hdig⟩ := h
    simp only [batch_from_readers_go]
    rcases List.mem_cons.mp hmem with rfl | hmem2
    · rw [if_neg (by unfold generic_name at hgen; tauto),
        if_neg (by unfold generic_name at hgen; tauto),
        if_neg (by unfold generic_name at hgen; tauto)]
      cases hlast : pr.prop.name.data.getLast? with
      | none => simp [hlast]
      | some c =>
        have hc : c.isDigit = true := by
          simpa [digit_or_empty_end, hlast] using hdig
        simp [hlast, hc]
    · by_cases h1 : r.prop.name = "x" ∨ r.prop.name = "y" ∨ r.prop.name = "z"
      · rw [if_pos h1]
        exact ih attrs ⟨pr, hmem2, hgen, hdig⟩
      · rw [if_neg h1]
        by_cases h2 : r.prop.name = "r" ∨ r.prop.name = "red"
        · rw [if_pos h2]
          exact ih _ ⟨pr, hmem2, hgen, hdig⟩
        · rw [if_neg h2]
          by_cases h3 : r.prop.name = "g" ∨ r.prop.name = "green" ∨ r.prop.name = "b" ∨
            r.prop.name = "blue" ∨ r.prop.name = "a" ∨ r.prop.name = "alpha"
          · rw [if_pos h3]
            exact ih _ ⟨pr, hmem2, hgen, hdig⟩
          · rw [if_neg h3]
            cases hlast : r.prop.name.data.getLast? with
            | none => simp [hlast]
            | some c =>
              simp only [hlast]
              by_cases hc : c.isDigit = true
              · simp [hc]
              · rw [if_neg hc]
                cases r.prop.data_type <;> exact ih _ ⟨pr, hmem2, hgen, hdig⟩

theorem batch_from_readers_panic {rs : List PropertyReader}
    (h : ∃ pr ∈ rs, generic_name pr.prop.name ∧
      digit_or_empty_end pr.prop.name = true) :
    batch_from_readers rs = .panic := by
  unfold batch_from_readers
  rw [bfr_go_panic rs [] h]

/-! ## Lemmas about the writer's count field -/

theorem decValue_append_digit (ds : List Nat) (d : Nat) :
    decValue (ds ++ [d]) = 10 * decValue ds + d := by
  simp [decValue, List.foldl_append]

theorem decDigitsAux_spec :
    ∀ (fuel n : Nat), n < 10 ^ fuel →
      decValue (decDigitsAux fuel n) = n ∧ ∀ d ∈ decDigitsAux fuel n, d < 10 := by
  intro fuel
  induction fuel with
  | zero =>
    intro n h
    simp only [pow_zero, Nat.lt_one_iff] at h
    simp [decDigitsAux, decValue, h]
  | succ fuel ih =>
    intro n h
    simp only [decDigitsAux]
    split_ifs with h0
    · simp [decValue, h0]
    · have hdiv : n / 10 < 10 ^ fuel := by
        rw [Nat.div_lt_iff_lt_mul (by omega)]
        calc n < 10 ^ (fuel + 1) := h
          _ = 10 ^ fuel * 10 := by ring
      obtain ⟨ihv, ihd⟩ := ih (n / 10) hdiv
      constructor
      · rw [decValue_append_digit, ihv]
        omega
      · intro d hd
        rcases List.mem_append.mp hd with hd1 | hd1
        · exact ihd d hd1
        · simp only [List.mem_singleton] at hd1
          omega

theorem decDigits_value (n : Nat) : decValue (decDigits n) = n := by
  unfold decDigits
  split_ifs with h0
  · simp [decValue, h0]
  · exact (decDigitsAux_spec (n + 1) n
      (lt_of_lt_of_le (Nat.lt_pow_self (by omega) n)
        (Nat.pow_le_pow_right (by omega) (by omega)))).1

theorem decDigits_digits (n : Nat) : ∀ d ∈ decDigits n, d < 10 := by
  unfold decDigits
  split_ifs with h0
  · simp
  · exact (decDigitsAux_spec (n + 1) n
      (lt_of_lt_of_le (Nat.lt_pow_self (by omega) n)
        (Nat.pow_le_pow_right (by omega) (by omega)))).2

theorem decDigitsAux_length :
    ∀ (fuel n k : Nat), n < 10 ^ k → n < 10 ^ fuel →
      (decDigitsAux fuel n).length ≤ k := by
  intro fuel
  induction fuel with
  | zero => intro n k _ _; simp [decDigitsAux]
  | succ fuel ih =>
    intro n k hk hf
    simp only [decDigitsAux]
    split_ifs with h0
    · simp
    · have hknz : 1 ≤ k := by
        by_contra hc
        have : k = 0 := by omega
        rw [this] at hk
        simp at hk
        omega
      have h1 : n / 10 < 10 ^ (k - 1) := by
        rw [Nat.div_lt_iff_lt_mul (by omega)]
        calc n < 10 ^ k := hk
          _ = 10 ^ (k - 1) * 10 := by
            rw [← pow_succ]
            congr 1
            omega
      have h2 : n / 10 < 10 ^ fuel := by
        rw [Nat.div_lt_iff_lt_mul (by omega)]
        calc n < 10 ^ (fuel + 1) := hf
          _ = 10 ^ fuel * 10 := by ring
      have := ih (n / 10) (k - 1) h1 h2
      simp only [List.length_append, List.length_singleton]
      omega

theorem decDigits_length {n k : Nat} (hk : 1 ≤ k) (h : n < 10 ^ k) :
    (decDigits n).length ≤ k := by
  unfold decDigits
  split_ifs with h0
  · simpa using hk
  · exact decDigitsAux_length (n + 1) n k h
      (lt_of_lt_of_le (Nat.lt_pow_self (by omega) n)
        (Nat.pow_le_pow_right (by omega) (by omega)))

theorem countFieldBytes_length {pc : Nat} (h : pc < 10 ^ 20) :
    (countFieldBytes pc).length = 20 := by
  have hw : HEADER_NUM_VERTICES.data.length = 20 := by decide
  have hlen : (decDigits pc).length ≤ 20 := decDigits_length (by omega) h
  unfold countFieldBytes
  rw [hw]
  split_ifs with hcase
  · simp
    omega
  · simp
    omega

theorem parse_digit_fold :
    ∀ (ds : List Nat) (a : Nat), (∀ d ∈ ds, d < 10) →
      (ds.map (· + 48)).foldl
        (fun acc b => acc.bind (fun x =>
          if 48 ≤ b ∧ b ≤ 57 then some (10 * x + (b - 48)) else none))
        (some a) = some (ds.foldl (fun x d => 10 * x + d) a) := by
  intro ds
  induction ds with
  | nil => intro a _; rfl
  | cons d rest ih =>
    intro a hd
    have hd0 : d < 10 := hd d (by simp)
    simp only [List.map_cons, List.foldl_cons, Option.some_bind]
    rw [if_pos (by omega)]
    have : d + 48 - 48 = d := by omega
    rw [this]
    exact ih (10 * a + d) (fun x hx => hd x (by simp [hx]))

theorem decValue_replicate_zero (k : Nat) (ds : List Nat) :
    decValue (List.replicate k 0 ++ ds) = decValue ds := by
  induction k with
  | zero => simp
  | succ k ih =>
    rw [List.replicate_succ, List.cons_append]
    simpa [decValue] using ih

/-- Parsing the rendered count field recovers the point count. -/
theorem parse_countFieldBytes {pc : Nat} (h : pc < 10 ^ 20) :
    (countFieldBytes pc).foldl
      (fun acc b => acc.bind (fun x =>
        if 48 ≤ b ∧ b ≤ 57 then some (10 * x + (b - 48)) else none))
      (some 0) = some pc := by
  unfold countFieldBytes
  have hw : HEADER_NUM_VERTICES.data.length = 20 := by decide
  rw [hw]
  split_ifs with hcase
  · rw [parse_digit_fold _ 0 ?_]
    · show some (decValue (List.replicate (20 - (decDigits pc).length) 0 ++
        decDigits pc)) = some pc
      rw [decValue_replicate_zero, decDigits_value]
    · intro d hd
      rcases List.mem_append.mp hd with hd1 | hd1
      · simp only [List.mem_replicate] at hd1
        omega
      · exact decDigits_digits pc d hd1
  · rw [parse_digit_fold _ 0 (decDigits_digits pc)]
    show some (decValue (decDigits pc)) = some pc
    rw [decDigits_value]

theorem write_all_data_of_at_end {w : DataWriter} {bs : List Nat}
    (h : w.pos = w.data.length) :
    (w.write_all bs).data = w.data ++ bs ∧ (w.write_all bs).pos = w.pos + bs.length := by
  simp [DataWriter.write_all, h, List.drop_eq_nil_of_le]

theorem write_all_length_of_within {w : DataWriter} {bs : List Nat}
    (h : w.pos + bs.length ≤ w.data.length) :
    (w.write_all bs).data.length = w.data.length := by
  simp only [DataWriter.write_all, List.length_append, List.length_take, List.length_drop]
  omega

theorem write_all_slice {w : DataWriter} {bs : List Nat}
    (h : w.pos ≤ w.data.length) :
    ((w.write_all bs).data.drop w.pos).take bs.length = bs := by
  simp only [DataWriter.write_all]
  rw [List.append_assoc]
  rw [List.drop_append_of_le_length (by rw [List.length_take]; omega)]
  rw [List.drop_eq_nil_of_le (by rw [List.length_take]; omega)]
  rw [List.nil_append]
  exact List.take_left bs _

/-! ## Concrete inputs used by witnesses and counterexamples -/

def dfltIter : PlyIterator := ⟨[], 0, 0, V3.zero, 0, 0, []⟩

def c1Lines : List String := ["ply\n", "format binary_little_endian 1.0\n",
  "element vertex 3\n", "property uchar x\n", "property uchar y\n",
  "property uchar z\n", "end_header\n"]

def c1Data : List Nat := [1, 1, 1, 2, 2, 2, 3, 3, 3]

def c1State : PlyIterator := (PlyIterator.from_file c1Lines c1Data 2).getD dfltIter

def c3AsciiLines : List String := ["ply\n", "format ascii 1.0\n",
  "element vertex 0\n", "property float x\n", "property float y\n",
  "property float z\n", "end_header\n"]

def c6Lines : List String := ["ply\n", "format binary_little_endian 1.0\n",
  "element vertex 1\n", "property uchar x\n", "property uchar y\n",
  "property uchar z\n", "property float foo1\n", "end_header\n"]

def c6State : PlyIterator := (PlyIterator.from_file c6Lines [1, 2, 3, 0, 0, 0, 0] 1).getD dfltIter

def c7Lines : List String := ["ply\n", "format binary_little_endian 1.0\n",
  "comment offset: 10 20 30\n", "element vertex 1\n", "property uchar x\n",
  "property uchar y\n", "property uchar z\n", "end_header\n"]

def c7Data : List Nat := [1, 2, 3]

def c7State : PlyIterator := (PlyIterator.from_file c7Lines c7Data 1).getD dfltIter

/-! ## Claims -/

/-- C2: the compiled decode step should advance the running byte offset
(and the per-point record size) by exactly the scalar type's fixed byte
width — 1,1,2,2,4,4 for the 8/16/32-bit integers, 8,8 for int64/uint64, 4
for float32 and 8 for float64.  The code's `read_casted_property!` table
advances by only 4 for `Uint64`/`Int64` although its reading fn
(`LittleEndian::read_u64`/`read_i64`) consumes 8 buffer bytes; all other
types match the spec's table. -/
theorem C2_widths_table :
    read_casted_property_width DataType.Uint8 = 1 ∧
    read_casted_property_width DataType.Int8 = 1 ∧
    read_casted_property_width DataType.Uint16 = 2 ∧
    read_casted_property_width DataType.Int16 = 2 ∧
    read_casted_property_width DataType.Uint32 = 4 ∧
    read_casted_property_width DataType.Int32 = 4 ∧
    read_casted_property_width DataType.Float32 = 4 ∧
    read_casted_property_width DataType.Float64 = 8 ∧
    read_casted_property_width DataType.Uint64 = 4 ∧
    read_casted_property_width DataType.Int64 = 4 ∧
    spec_scalar_byte_width DataType.Uint64 = 8 ∧
    spec_scalar_byte_width DataType.Int64 = 8 ∧
    reading_fn_bytes_read DataType.Uint64 = 8 ∧
    reading_fn_bytes_read DataType.Int64 = 8 ∧
    read_casted_property_width DataType.Uint64 ≠
      reading_fn_bytes_read DataType.Uint64 ∧
    read_casted_property_width DataType.Int64 ≠
      reading_fn_bytes_read DataType.Int64 ∧
    read_casted_property_width DataType.Uint8 = spec_scalar_byte_width DataType.Uint8 ∧
    read_casted_property_width DataType.Int8 = spec_scalar_byte_width DataType.Int8 ∧
    read_casted_property_width DataType.Uint16 = spec_scalar_byte_width DataType.Uint16 ∧
    read_casted_property_width DataType.Int16 = spec_scalar_byte_width DataType.Int16 ∧
    read_casted_property_width DataType.Uint32 = spec_scalar_byte_width DataType.Uint32 ∧
    read_casted_property_width DataType.Int32 = spec_scalar_byte_width DataType.Int32 ∧
    read_casted_property_width DataType.Float32 = spec_scalar_byte_width DataType.Float32 ∧
    read_casted_property_width DataType.Float64 = spec_scalar_byte_width DataType.Float64 := by
  decide

/-- C5 (amended): for every vertex property named `a` or `alpha`, of any
declared scalar type, the compiled decode step stores nothing into the
batch and advances the read cursor by exactly 1 byte — the hard-coded
`create_skip_fn!(prop, .., 1)` width, not the property's declared byte
width. -/
theorem C5_alpha_skip (name : String) (dt : DataType)
    (h : name = "a" ∨ name = "alpha") :
    reader_for_prop ⟨name, dt⟩ = ReadStep.skip 1 ∧
    ∀ (pr : PropertyReader) (buf : List Nat) (nread : Nat) (b : PointsBatch),
      pr.step = ReadStep.skip 1 → runStep pr buf nread b = some (nread + 1, b) := by
  constructor
  · rcases h with rfl | rfl <;> rfl
  · intro pr buf nread b hst
    simp [runStep, hst]

/-- C5 witness: the `a` property of declared type float32 compiles to a
1-byte skip whose step leaves the batch unchanged. -/
theorem C5_witness :
    reader_for_prop ⟨"a", DataType.Float32⟩ = ReadStep.skip 1 ∧
    runStep ⟨⟨"a", DataType.Float32⟩, ReadStep.skip 1⟩ [] 0 ⟨[], []⟩ =
      some (0 + 1, ⟨[], []⟩) :=
  ⟨(C5_alpha_skip "a" DataType.Float32 (Or.inl rfl)).1,
   (C5_alpha_skip "a" DataType.Float32 (Or.inl rfl)).2
     ⟨⟨"a", DataType.Float32⟩, ReadStep.skip 1⟩ [] 0 ⟨[], []⟩ rfl⟩

/-- C5 counterexample: an `alpha` property declared float32 (4 bytes wide)
is skipped with a cursor advance of 1 byte, not its declared width 4. -/
theorem C5_counterexample :
    runStep ⟨⟨"alpha", DataType.Float32⟩, reader_for_prop ⟨"alpha", DataType.Float32⟩⟩
      [0, 0, 0, 0] 0 ⟨[], []⟩ = some (1, ⟨[], []⟩) ∧
    spec_scalar_byte_width DataType.Float32 = 4 ∧ (1 : Nat) ≠ 4 := by
  decide

/-- C8: header parsing returns an error when `end_header` is reached with
no format line seen, when a `property` line occurs outside any element
block, and when a line's first token is not one of the recognized
keywords; a 5-token `property list` declaration is skipped without
contributing a property (the current element and all other state except
the byte count are unchanged). -/
theorem C8_parse_failures :
    (∀ (l : String) (rest : List String) (cur : Option Element) (off : V3)
       (elems : List Element) (len : Nat), (tokens l).head? = some "end_header" →
      parse_header_loop (l :: rest) none cur off elems len =
        .err "No format specified")
  ∧ (∀ (l : String) (rest : List String) (fmt : Option Format) (off : V3)
       (elems : List Element) (len : Nat), (tokens l).head? = some "property" →
      parse_header_loop (l :: rest) fmt none off elems len =
        .err ("property outside of element: " ++ l))
  ∧ (∀ (l : String) (rest : List String) (fmt : Option Format) (cur : Option Element)
       (off : V3) (elems : List Element) (len : Nat) (t : String) (ts : List String),
      tokens l = t :: ts →
      t ≠ "format" → t ≠ "element" → t ≠ "property" → t ≠ "end_header" →
      t ≠ "comment" →
      parse_header_loop (l :: rest) fmt cur off elems len =
        .err ("Invalid line: " ++ l))
  ∧ (∀ (l : String) (rest : List String) (fmt : Option Format) (e : Element) (off : V3)
       (elems : List Element) (len : Nat) (t1 t2 t3 : String),
      tokens l = ["property", "list", t1, t2, t3] →
      parse_header_loop (l :: rest) fmt (some e) off elems len =
        parse_header_loop rest fmt (some e) off elems (len + strUtf8Len l)) := by
  refine ⟨?_, ?_, ?_, ?_⟩
  · intro l rest cur off elems len h
    obtain ⟨ts, htok⟩ : ∃ ts, tokens l = "end_header" :: ts := by
      cases htok2 : tokens l with
      | nil => rw [htok2] at h; exact absurd h (by simp)
      | cons a b =>
        rw [htok2] at h
        simp only [List.head?_cons] at h
        exact ⟨b, by rw [Option.some.inj h]⟩
    simp [parse_header_loop, htok]
  · intro l rest fmt off elems len h
    obtain ⟨ts, htok⟩ : ∃ ts, tokens l = "property" :: ts := by
      cases htok2 : tokens l with
      | nil => rw [htok2] at h; exact absurd h (by simp)
      | cons a b =>
        rw [htok2] at h
        simp only [List.head?_cons] at h
        exact ⟨b, by rw [Option.some.inj h]⟩
    simp [parse_header_loop, htok]
  · intro l rest fmt cur off elems len t ts htok h1 h2 h3 h4 h5
    simp [parse_header_loop, htok, h1, h2, h3, h4, h5]
  · intro l rest fmt e off elems len t1 t2 t3 htok
    simp [parse_header_loop, htok]

/-- C8 witness: concrete instances of the four parsing behaviors. -/
theorem C8_witness :
    parse_header_loop ["end_header\n"] none none V3.zero [] 4 =
      .err "No format specified"
  ∧ parse_header_loop ["property float x\n"] none none V3.zero [] 4 =
      .err ("property outside of element: " ++ "property float x\n")
  ∧ parse_header_loop ["bogus 1\n"] none none V3.zero [] 4 =
      .err ("Invalid line: " ++ "bogus 1\n")
  ∧ parse_header_loop ["property list uchar int vertex_indices\n"] none
      (some ⟨"vertex", 0, []⟩) V3.zero [] 4 =
      parse_header_loop [] none (some ⟨"vertex", 0, []⟩) V3.zero []
        (4 + strUtf8Len "property list uchar int vertex_indices\n") :=
  ⟨C8_parse_failures.1 _ _ _ _ _ _ (by decide),
   C8_parse_failures.2.1 _ _ _ _ _ _ (by decide),
   C8_parse_failures.2.2.1 _ _ _ _ _ _ _ "bogus" ["1"] (by decide) (by decide)
     (by decide) (by decide) (by decide) (by decide),
   C8_parse_failures.2.2.2 _ _ _ _ _ _ _ "uchar" "int" "vertex_indices" (by decide)⟩

/-- C9: if the header byte stream contains a blank or whitespace-only line
before `end_header` — including the stream ending early, after which
`read_line` yields an empty line forever — `parse_header` panics on the
out-of-bounds `entries[0]` index instead of returning an error: the error
branch of the parser is not total over all byte streams. -/
theorem C9_blank_line_panics :
    (∀ (fmt : Option Format) (cur : Option Element) (off : V3)
       (elems : List Element) (len : Nat),
      parse_header_loop [] fmt cur off elems len = .panic)
  ∧ (∀ (l : String) (rest : List String) (fmt : Option Format) (cur : Option Element)
       (off : V3) (elems : List Element) (len : Nat), tokens l = [] →
      parse_header_loop (l :: rest) fmt cur off elems len = .panic)
  ∧ parse_header ["ply\n"] = .panic
  ∧ parse_header ["ply\n", " \n", "format binary_little_endian 1.0\n",
      "end_header\n"] = .panic := by
  refine ⟨fun _ _ _ _ _ => rfl, ?_, by decide, by decide⟩
  intro l rest fmt cur off elems len h
  simp [parse_header_loop, h]

/-- C9 witness: a whitespace-only line makes the dispatch loop panic. -/
theorem C9_witness : parse_header_loop [" \n"] none none V3.zero [] 4 = .panic :=
  C9_blank_line_panics.2.1 " \n" [] none none V3.zero [] 4 (by decide)

def dfltHeader : Header := ⟨Format.BinaryLittleEndianV1, [], V3.zero⟩

def c3BadLines : List String := ["ply\n", "format binary_little_endian 1.0\n",
  "bogus\n", "end_header\n"]

def c3NoVertexLines : List String := ["ply\n", "format binary_little_endian 1.0\n",
  "element face 0\n", "end_header\n"]

def c3NoZLines : List String := ["ply\n", "format binary_little_endian 1.0\n",
  "element vertex 1\n", "property uchar x\n", "property uchar y\n",
  "end_header\n"]

/-- C3 (amended): failure at reader construction is decided at open time,
but only a malformed header yields an error value; a missing `vertex`
element, a format other than binary little-endian, and a missing `x`, `y`
or `z` property all panic instead of returning an error. -/
theorem C3_open_failures (lines : List String) (data : List Nat) (B : Nat) :
    (∀ m, parse_header lines = .err m →
      PlyIterator.from_file lines data B = .err m)
  ∧ (∀ header len, parse_header lines = .ok (header, len) →
      ((header.find "vertex" = none →
          PlyIterator.from_file lines data B = .panic)
       ∧ (∀ vertex, header.find "vertex" = some vertex →
            header.format ≠ Format.BinaryLittleEndianV1 →
            PlyIterator.from_file lines data B = .panic)
       ∧ (∀ vertex, header.find "vertex" = some vertex →
            ¬(vertex.properties.any (fun p => p.name = "x") = true ∧
              vertex.properties.any (fun p => p.name = "y") = true ∧
              vertex.properties.any (fun p => p.name = "z") = true) →
            PlyIterator.from_file lines data B = .panic))) := by
  constructor
  · intro m hm
    simp [PlyIterator.from_file, hm]
  · intro header len hok
    refine ⟨?_, ?_, ?_⟩
    · intro hnone
      simp [PlyIterator.from_file, hok, hnone]
    · intro vertex hfind hfmt
      simp only [PlyIterator.from_file, hok, hfind]
      rw [if_pos hfmt]
    · intro vertex hfind hseen
      simp only [PlyIterator.from_file, hok, hfind]
      by_cases hf : header.format = Format.BinaryLittleEndianV1
      · rw [if_neg (by simp [hf])]
        simp only [compile_readers_spec]
        split_ifs with hc <;> first
          | rfl
          | exact absurd hseen hc
          | exact absurd hc hseen
      · rw [if_pos hf]

/-- C3 witness: a malformed header line yields the parse error; a missing
vertex element, an `ascii` format and a vertex element without `z` all
panic at open time. -/
theorem C3_witness :
    PlyIterator.from_file c3BadLines [] 1 = .err ("Invalid line: " ++ "bogus\n") ∧
    PlyIterator.from_file c3NoVertexLines [] 1 = .panic ∧
    PlyIterator.from_file c3AsciiLines [] 1 = .panic ∧
    PlyIterator.from_file c3NoZLines [] 1 = .panic :=
  ⟨(C3_open_failures c3BadLines [] 1).1 ("Invalid line: " ++ "bogus\n") (by decide),
   ((C3_open_failures c3NoVertexLines [] 1).2
      ((parse_header c3NoVertexLines).getD (dfltHeader, 0)).1
      ((parse_header c3NoVertexLines).getD (dfltHeader, 0)).2 (by decide)).1
      (by decide),
   ((C3_open_failures c3AsciiLines [] 1).2
      ((parse_header c3AsciiLines).getD (dfltHeader, 0)).1
      ((parse_header c3AsciiLines).getD (dfltHeader, 0)).2 (by decide)).2.1
      ((((parse_header c3AsciiLines).getD (dfltHeader, 0)).1.find "vertex").getD
        ⟨"vertex", 0, []⟩)
      (by decide) (by decide),
   ((C3_open_failures c3NoZLines [] 1).2
      ((parse_header c3NoZLines).getD (dfltHeader, 0)).1
      ((parse_header c3NoZLines).getD (dfltHeader, 0)).2 (by decide)).2.2
      ((((parse_header c3NoZLines).getD (dfltHeader, 0)).1.find "vertex").getD
        ⟨"vertex", 0, []⟩)
      (by decide) (by decide)⟩

/-- C3 counterexample: for an `ascii`-format file, opening does not return
a failure value — it panics, so the claim that construction returns a
failure value in these cases is false. -/
theorem C3_counterexample :
    PlyIterator.from_file c3AsciiLines [] 1 = .panic ∧
    (PlyIterator.from_file c3AsciiLines [] 1).isErr = false ∧
    (PlyIterator.from_file c3AsciiLines [] 1).isOk = false := by
  decide

/-- C6 (amended): a generic vertex property whose name ends in an ASCII
digit does not fail at reader construction: `from_file` succeeds, and the
`unimplemented!()` panic fires at the first `next()` call, when
`batch_from_readers` builds the empty batch. -/
theorem C6_digit_attr_panics_at_first_next (lines : List String) (data : List Nat)
    (B : Nat) (s : PlyIterator)
    (hok : PlyIterator.from_file lines data B = .ok s)
    (hN : s.point_count ≠ usize_cast s.num_total_points)
    (hdigit : ∃ pr ∈ s.readers, generic_name pr.prop.name ∧
      digit_or_empty_end pr.prop.name = true) :
    (PlyIterator.from_file lines data B).isOk = true ∧
    PlyIterator.next s = .panic := by
  refine ⟨by rw [hok]; rfl, ?_⟩
  simp only [PlyIterator.next]
  rw [if_neg hN, batch_from_readers_panic hdigit]

/-- C6 witness: a file with generic property `foo1` opens fine and panics
at the first `next()`. -/
theorem C6_witness :
    (PlyIterator.from_file c6Lines [1, 2, 3, 0, 0, 0, 0] 1).isOk = true ∧
    PlyIterator.next c6State = .panic :=
  C6_digit_attr_panics_at_first_next c6Lines [1, 2, 3, 0, 0, 0, 0] 1 c6State
    (by decide) (by decide)
    ⟨⟨⟨"foo1", DataType.Float32⟩, reader_for_prop ⟨"foo1", DataType.Float32⟩⟩,
     by decide⟩

/-- C6 counterexample: reader construction on such a file succeeds (it is
not an unrecoverable failure raised at construction); the panic is
deferred to the first decode. -/
theorem C6_counterexample :
    (PlyIterator.from_file c6Lines [1, 2, 3, 0, 0, 0, 0] 1).isOk = true ∧
    PlyIterator.next ((PlyIterator.from_file c6Lines [1, 2, 3, 0, 0, 0, 0] 1).getD
      dfltIter) = .panic := by
  decide

/-- C10: the attribute map built by repeated `BTreeMap::insert` is a
deterministic, key-sorted function of the column set — independent of
insertion order — and both the derived header property list and the
per-point record enumerate the columns in exactly the map's (ascending
byte-lexicographic) key order, after the position column. -/
theorem C10_attr_order :
    (∀ (l1 l2 : List (String × AttributeData)), l1.Perm l2 →
      (l1.map Prod.fst).Nodup → buildAttrMap l1 = buildAttrMap l2)
  ∧ (∀ l, keysSorted (buildAttrMap l))
  ∧ (∀ p : PointsBatch, (write_batch_elements p).map (fun e => e.1) =
      p.attributes.map Prod.fst)
  ∧ (∀ p : PointsBatch, record_column_names p =
      "position" :: p.attributes.map Prod.fst) := by
  refine ⟨?_, buildAttrMap_sorted, ?_, ?_⟩
  · intro l1 l2 hperm hnd
    haveI : IsAntisymm (String × AttributeData) (fun a b => strLt a.1 b.1 = true) :=
      ⟨fun a b h1 h2 => (strLt_asymm h1 h2).elim⟩
    have hnd2 : (l2.map Prod.fst).Nodup := (hperm.map Prod.fst).nodup_iff.mp hnd
    have hp : (buildAttrMap l1).Perm (buildAttrMap l2) :=
      ((buildAttrMap_perm l1 hnd).trans hperm).trans (buildAttrMap_perm l2 hnd2).symm
    exact List.eq_of_perm_of_sorted hp (buildAttrMap_sorted l1) (buildAttrMap_sorted l2)
  · intro p
    simp only [write_batch_elements, List.map_map]
    rfl
  · intro p
    rfl

/-- C10 witness: two insertion orders of the same two columns build the
same map. -/
theorem C10_witness :
    buildAttrMap [("intensity", AttributeData.F32 []), ("color", AttributeData.U8Vec3 [])] =
      buildAttrMap [("color", AttributeData.U8Vec3 []), ("intensity", AttributeData.F32 [])] :=
  C10_attr_order.1
    [("intensity", AttributeData.F32 []), ("color", AttributeData.U8Vec3 [])]
    [("color", AttributeData.U8Vec3 []), ("intensity", AttributeData.F32 [])]
    (by decide) (by decide)

/-! ## Helper lemmas for the count field claim -/

theorem write_all_at_end_inv (bs : List Nat) {w : DataWriter}
    (h : w.pos = w.data.length) :
    (w.write_all bs).data = w.data ++ bs ∧
    (w.write_all bs).pos = (w.write_all bs).data.length := by
  obtain ⟨hd, hp⟩ := write_all_data_of_at_end h
  exact ⟨hd, by rw [hd, hp, List.length_append, h]⟩

theorem create_header_data_empty (enc : Encoding)
    (elems : List (String × String × Nat)) :
    (create_header ⟨[], 0⟩ enc elems).data =
      strBytes HEADER_START_TO_NUM_VERTICES ++ strBytes HEADER_NUM_VERTICES ++
      (strBytes "\n" ++
        (((["x", "y", "z"].map (property_line (pos_data_str enc)))).flatten ++
          ((elems.map element_property_lines).flatten ++
            strBytes "end_header\n"))) := by
  have h1 := @write_all_at_end_inv (strBytes HEADER_START_TO_NUM_VERTICES) ⟨[], 0⟩ rfl
  have h2 := write_all_at_end_inv (strBytes HEADER_NUM_VERTICES) h1.2
  have h3 := write_all_at_end_inv (strBytes "\n") h2.2
  have h4 := write_all_at_end_inv
    (((["x", "y", "z"].map (property_line (pos_data_str enc)))).flatten) h3.2
  have h5 := write_all_at_end_inv ((elems.map element_property_lines).flatten) h4.2
  have h6 := write_all_at_end_inv (strBytes "end_header\n") h5.2
  simp only [create_header]
  rw [h6.1, h5.1, h4.1, h3.1, h2.1, h1.1]
  simp [List.append_assoc]

theorem slice51of20 {A B C : List Nat} (hA : A.length = 51) (hB : B.length = 20) :
    ((A ++ B ++ C).drop 51).take 20 = B := by
  rw [List.append_assoc, ← hA, List.drop_left, ← hB, List.take_left]

/-- C4 (amended): the count field the writer reserves, reads back in
append mode and patches at finalize is a 20-character (not 21) zero-padded
decimal at fixed byte offset 51; finalize appends the trailing newline and
then overwrites the field in place, preserving the file length. -/
theorem C4_count_field :
    (strBytes HEADER_START_TO_NUM_VERTICES).length = 51 ∧
    HEADER_NUM_VERTICES.data.length = 20 ∧
    (∀ enc elems, ((create_header ⟨[], 0⟩ enc elems).data.drop 51).take 20 =
      strBytes HEADER_NUM_VERTICES) ∧
    (∀ pc, pc < 10 ^ 20 → (countFieldBytes pc).length = 20) ∧
    (∀ (w : DataWriter) (pc : Nat), 0 < pc → pc < 10 ^ 20 →
      w.pos = w.data.length → 71 ≤ w.data.length →
      (ply_writer_drop w pc).data.length = w.data.length + 1 ∧
      (((w.write_all (strBytes "\n")).seekStart
          (strBytes HEADER_START_TO_NUM_VERTICES).length).write_all
          (countFieldBytes pc)).data.length =
        (w.write_all (strBytes "\n")).data.length ∧
      parse_count_field (ply_writer_drop w pc).data = some pc) := by
  have h51 : (strBytes HEADER_START_TO_NUM_VERTICES).length = 51 := by decide
  have hw20 : HEADER_NUM_VERTICES.data.length = 20 := by decide
  refine ⟨h51, hw20, ?_, fun pc h => countFieldBytes_length h, ?_⟩
  · intro enc elems
    rw [create_header_data_empty]
    exact slice51of20 (by decide) (by decide)
  · intro w pc hpc hlt hpos hlen
    have hF : (countFieldBytes pc).length = 20 := countFieldBytes_length hlt
    have hd1 := @write_all_data_of_at_end w (strBytes "\n") hpos
    have hlen1 : (w.write_all (strBytes "\n")).data.length = w.data.length + 1 := by
      rw [hd1.1, List.length_append, (by decide : (strBytes "\n").length = 1)]
    have hwithin : (strBytes HEADER_START_TO_NUM_VERTICES).length +
        (countFieldBytes pc).length ≤ (w.write_all (strBytes "\n")).data.length := by
      rw [hF, h51, hlen1]; omega
    have hkeep := @write_all_length_of_within
      ((w.write_all (strBytes "\n")).seekStart
        (strBytes HEADER_START_TO_NUM_VERTICES).length)
      (countFieldBytes pc) hwithin
    have hslice := @write_all_slice
      ((w.write_all (strBytes "\n")).seekStart
        (strBytes HEADER_START_TO_NUM_VERTICES).length)
      (countFieldBytes pc)
      (by simp only [DataWriter.seekStart]
          rw [h51, hlen1]
          omega)
    refine ⟨?_, ?_, ?_⟩
    · simp only [ply_writer_drop]
      rw [if_neg (by omega), hkeep]
      show (w.write_all (strBytes "\n")).data.length = w.data.length + 1
      exact hlen1
    · rw [hkeep]
      rfl
    · simp only [ply_writer_drop]
      rw [if_neg (by omega)]
      simp only [parse_count_field, DataWriter.seekStart] at hslice ⊢
      rw [hF] at hslice
      rw [hw20, hslice]
      exact parse_countFieldBytes hlt

/-- C4 counterexample: the reserved field is 20 characters, not 21. -/
theorem C4_counterexample :
    HEADER_NUM_VERTICES.data.length = 20 ∧ HEADER_NUM_VERTICES.data.length ≠ 21 ∧
    (countFieldBytes 5).length = 20 := by
  decide

/-- C4 witness: finalizing a 71-byte file with 5 points appends one byte
and the patched field reads back as 5. -/
theorem C4_witness :
    (ply_writer_drop ⟨List.replicate 71 0, 71⟩ 5).data.length = 72 ∧
    parse_count_field (ply_writer_drop ⟨List.replicate 71 0, 71⟩ 5).data = some 5 := by
  have h := C4_count_field.2.2.2.2 ⟨List.replicate 71 0, 71⟩ 5 (by decide) (by decide)
    (by decide) (by decide)
  exact ⟨by rw [h.1]; decide, h.2.2⟩


/-- C1: for a file declaring N vertices and batch size B ≥ 1, iterating
the opened reader yields exactly ceil(N/B) batches; every batch except
possibly the last has length B, the last is non-empty, the sum of the
batch lengths is N, and after the last batch `next` yields `None`. -/
theorem C1_batch_counts (lines : List String) (data : List Nat) (B N : Nat)
    (s : PlyIterator) (bs : List PointsBatch) (s2 : PlyIterator)
    (hok : PlyIterator.from_file lines data B = .ok s)
    (hB : 1 ≤ B)
    (hN : usize_cast s.num_total_points = N)
    (hcol : collectBatches s (div_ceil N B) = .ok (bs, s2)) :
    bs.length = div_ceil N B ∧
    (∀ b ∈ bs.dropLast, b.position.length = B) ∧
    (∀ b, bs.getLast? = some b → 0 < b.position.length ∧ b.position.length ≤ B) ∧
    (bs.map (fun b => b.position.length)).sum = N ∧
    PlyIterator.next s2 = .ok none := by
  obtain ⟨header, len, vertex, hparse, hfind, hfmt, hs⟩ := from_file_ok_spec hok
  have hpc : s.point_count = 0 := by rw [hs]
  have hsB : s.batch_size = B := by rw [hs]
  have hcc := collect_count_spec (div_ceil N B) s bs s2 hcol (by rw [hsB]; exact hB)
    (by rw [hpc]; omega) (by rw [hpc, hN, hsB]; simp)
  rw [hpc, hN, hsB] at hcc
  obtain ⟨h1, h2, h3, h4, h5, h6⟩ := hcc
  refine ⟨by simpa using h1, h2, h3, by simpa using h4, ?_⟩
  apply next_none_of_done
  rw [h5, h6, hN]

/-- C1 witness: a 3-point `uchar` file read with batch size 2 gives
batches of lengths 2 and 1, then `None`. -/
theorem C1_witness :
    (((collectBatches c1State (div_ceil 3 2)).getD ([], dfltIter)).1).length =
      div_ceil 3 2 ∧
    (∀ b ∈ (((collectBatches c1State (div_ceil 3 2)).getD ([], dfltIter)).1).dropLast,
      b.position.length = 2) ∧
    (∀ b, (((collectBatches c1State (div_ceil 3 2)).getD ([], dfltIter)).1).getLast? =
        some b → 0 < b.position.length ∧ b.position.length ≤ 2) ∧
    ((((collectBatches c1State (div_ceil 3 2)).getD ([], dfltIter)).1).map
      (fun b => b.position.length)).sum = 3 ∧
    PlyIterator.next ((collectBatches c1State (div_ceil 3 2)).getD ([], dfltIter)).2 =
      .ok none :=
  C1_batch_counts c1Lines c1Data 2 3 c1State
    ((collectBatches c1State (div_ceil 3 2)).getD ([], dfltIter)).1
    ((collectBatches c1State (div_ceil 3 2)).getD ([], dfltIter)).2
    (by decide) (by decide) (by decide) (by decide)

/-- C7: every position in every collected batch is the raw decoded
coordinate of its point record plus the header's global offset vector;
when no `comment offset:` line is present, that offset is the zero
vector. -/
theorem C7_offset_applied (lines : List String) (data : List Nat) (B fuel : Nat)
    (s : PlyIterator) (bs : List PointsBatch) (s2 : PlyIterator)
    (hok : PlyIterator.from_file lines data B = .ok s)
    (hcol : collectBatches s fuel = .ok (bs, s2)) :
    (∀ j b1, bs[j]? = some b1 → ∀ i, i < b1.position.length →
      ∃ r, decode_point_position s.readers
          (data.drop ((j * B + i) * readers_width_sum s.readers)) = some r ∧
        b1.position[i]? = some (r + s.offset)) ∧
    ((∀ l ∈ lines, is_offset_comment l = false) → s.offset = V3.zero) := by
  obtain ⟨header, len, vertex, hparse, hfind, hfmt, hs⟩ := from_file_ok_spec hok
  have hpc : s.point_count = 0 := by rw [hs]
  have hbytes : s.bytes = data := by rw [hs]
  have hsB : s.batch_size = B := by rw [hs]
  constructor
  · have hp := collect_pos_spec fuel s bs s2 hcol (by rw [hpc]; omega)
    rw [hbytes, hsB] at hp
    exact hp
  · intro hnone
    have hoff : header.offset = V3.zero := parse_header_offset_zero hnone hparse
    have hso : s.offset = header.offset := by rw [hs]
    rw [hso, hoff]

/-- C7 witness: a one-point file with `comment offset: 10 20 30`; the
collected position is the raw coordinate plus that offset. -/
theorem C7_witness :
    (∀ j b1, (((collectBatches c7State 1).getD ([], dfltIter)).1)[j]? = some b1 →
      ∀ i, i < b1.position.length →
      ∃ r, decode_point_position c7State.readers
          (c7Data.drop ((j * 1 + i) * readers_width_sum c7State.readers)) = some r ∧
        b1.position[i]? = some (r + c7State.offset)) ∧
    ((∀ l ∈ c7Lines, is_offset_comment l = false) → c7State.offset = V3.zero) :=
  C7_offset_applied c7Lines c7Data 1 1 c7State
    (((collectBatches c7State 1).getD ([], dfltIter)).1)
    (((collectBatches c7State 1).getD ([], dfltIter)).2)
    (by decide) (by decide)


end Ply
